import Mathlib

/-! A verification development for the channel-safely plugin: a shallow
embedding of its component tracking (GroupData), readiness evaluation
(is_group_ready), safety gating (ChannelManager::manage_safety and
manage_designations), dig-job bookkeeping (DigJobs) and job cancellation
(cancelJob), together with theorems about those operations. -/

/-- df::coord — an integer tile position (x, y, z). -/
structure Coord where
  x : Int
  y : Int
  z : Int
deriving DecidableEq, Repr

/-- The tile one layer directly above a tile: the source's `pos.z++` pattern. -/
def Coord.above (t : Coord) : Coord := { t with z := t.z + 1 }

/-- df::tile_dig_designation — the `bits.dig` field of a tile designation.
`Default` is the plain-dig request state, `No` the neutral state. -/
inductive TileDigDesignation where
  | No
  | Default
  | UpDownStair
  | Channel
  | Ramp
  | DownStair
  | UpStair
deriving DecidableEq, Repr

/-- df::job_type restricted to the kinds the plugin inspects. -/
inductive JobType where
  | Dig
  | DigChannel
  | Other
deriving DecidableEq, Repr

/-- df::job — an in-flight task bound to one tile position and one kind. -/
structure Job where
  pos : Coord
  job_type : JobType
deriving DecidableEq, Repr

/-- `is_dig(df::job*)`: the job type is Dig. -/
def is_dig (job : Job) : Bool := decide (job.job_type = JobType.Dig)

/-- `is_channel(df::job*)`: the job type is DigChannel. -/
def is_channel (job : Job) : Bool := decide (job.job_type = JobType.DigChannel)

/-- `is_channel(df::tile_designation&)`; the argument is its `bits.dig` field.
The C++ overloads `is_channel`; Lean needs a distinct name. -/
def is_channel_des (dig : TileDigDesignation) : Bool :=
  decide (dig = TileDigDesignation.Channel)

/-- A df::block_square_event: either a designation-priority overlay carrying a
16x16 priority array, or any other event kind (ignored by the plugin). -/
inductive BlockSquareEvent where
  | designation_priority (priority : Fin 16 → Fin 16 → Int)
  | other

/-- Whether an event is a designation-priority overlay
(`event->getType() == df::block_square_event_type::designation_priority`). -/
def BlockSquareEvent.isPriority : BlockSquareEvent → Bool
  | .designation_priority _ => true
  | .other => false

/-- df::map_block — one 16x16 slab: per-tile dig designation, the per-tile
`occupancy.bits.dig_marked` flag, the block-wide `flags.bits.designated` flag,
the block event list and the block's world position. -/
structure MapBlock where
  designation : Fin 16 → Fin 16 → TileDigDesignation
  occupancy : Fin 16 → Fin 16 → Bool
  designated : Bool
  block_events : List BlockSquareEvent
  map_pos : Coord

/-- Map extents in blocks, as returned by `Maps::getSize`. -/
structure Extents where
  x : Nat
  y : Nat
  z : Nat
deriving DecidableEq, Repr

/-- The surrounding world: block lookup by block coordinate (`Maps::getBlock`),
the global job list (`df::global::world->jobs.list`) and the map size
(`Maps::getSize`). -/
structure World where
  blocks : Coord → Option MapBlock
  jobs_list : List Job
  size : Extents

/-- C++ `v % 16` as a 16-bounded index. All call sites apply it to nonnegative
in-map coordinates, where Int.emod agrees with the C++ `%`. -/
def local16 (v : Int) : Fin 16 :=
  ⟨(v.emod 16).toNat, by
    have h1 : 0 ≤ v.emod 16 := Int.emod_nonneg v (by decide)
    have h2 : v.emod 16 < 16 := Int.emod_lt_of_pos v (by decide)
    omega⟩

/-- The block coordinate of the block containing a tile (`Maps::getTileBlock`
resolves a tile position to its 16x16 block). -/
def blockKeyOf (p : Coord) : Coord := ⟨p.x.ediv 16, p.y.ediv 16, p.z⟩

/-- `Maps::getTileBlock`: the block containing a tile position. -/
def World.getTileBlock (w : World) (p : Coord) : Option MapBlock :=
  w.blocks (blockKeyOf p)

/-- Write through a block pointer: update the block stored at one block
coordinate (a no-op when no block is present there). -/
def World.updateBlock (w : World) (k : Coord) (f : MapBlock → MapBlock) : World :=
  { w with blocks := fun c => if c = k then (w.blocks c).map f else w.blocks c }

/-- A group: the set of member tile positions. The C++ `GroupData::Group` is a
`std::set<std::pair<df::coord, df::map_block*>>`; the stored block pointer of a
member is always the block containing that member's coordinate, so the
embedding tracks coordinates only. -/
abbrev GroupData.Group := Finset Coord

/-- GroupData state: the group arena (`std::vector<Group> groups`), the group
index (`std::map<df::coord, int> groups_map`, modelled by its lookup function)
and the free-slot pool (`std::set<int> free_spots`). -/
structure GroupData where
  groups : List GroupData.Group
  groups_map : Coord → Option Nat
  free_spots : Finset Nat

/-- Modelled from the spec: `GroupData::find` is declared in channel-safely.h,
which is not under src/. Per the spec's GroupIndex ("mapping tile position →
group slot id, always consistent with current group membership") it resolves a
tile through `groups_map` to the group it references, or none
(`groups.end()`). -/
def GroupData.find (gd : GroupData) (p : Coord) : Option GroupData.Group :=
  (gd.groups_map p).bind (fun i => gd.groups[i]?)

/-- `getNeighbours`: the 8 same-layer neighbours of a tile, in source order. -/
def getNeighbours (tile : Coord) : List Coord :=
  [ { tile with x := tile.x - 1, y := tile.y - 1 },
    { tile with y := tile.y - 1 },
    { tile with x := tile.x + 1, y := tile.y - 1 },
    { tile with x := tile.x - 1 },
    { tile with x := tile.x + 1 },
    { tile with x := tile.x - 1, y := tile.y + 1 },
    { tile with y := tile.y + 1 },
    { tile with x := tile.x + 1, y := tile.y + 1 } ]

/-- One member check of `is_group_ready`: the tile above a member either maps
to no group (`group_iter == groups.end()`) or to an empty group. -/
def tile_above_clear (groups : GroupData) (group_tile : Coord) : Bool :=
  match groups.find group_tile.above with
  | none => true
  | some g => decide (g = (∅ : GroupData.Group))

/-- `is_group_ready(groups, below_group)`: the early-return member loop of the
C++ is the bounded forall over the member set — it returns false exactly when
some member's overlying tile maps to a non-empty group. -/
def is_group_ready (groups : GroupData) (below_group : GroupData.Group) : Bool :=
  decide (∀ t ∈ below_group, tile_above_clear groups t = true)

/-- DigJobs state: `std::map<df::coord, df::job*> jobs`, modelled as an
association list in insertion order (no claim depends on std::map's key
ordering, only on lookup by key). -/
structure DigJobs where
  jobs : List (Coord × Job)
deriving DecidableEq, Repr

/-- `jobs.find(pos)`: the entry with that exact key, or none. -/
def DigJobs.find (dj : DigJobs) (pos : Coord) : Option Job :=
  (dj.jobs.find? (fun e => decide (e.1 = pos))).map Prod.snd

/-- `jobs.emplace(pos, job)`: std::map emplace inserts only when the key is
absent. -/
def DigJobs.emplace (dj : DigJobs) (pos : Coord) (j : Job) : DigJobs :=
  match dj.find pos with
  | some _ => dj
  | none => ⟨dj.jobs ++ [(pos, j)]⟩

/-- `DigJobs::read()`: clear, then scan the global job list once, keeping only
Channel jobs, keyed by the job's tile position. -/
def DigJobs.read (w : World) : DigJobs :=
  w.jobs_list.foldl
    (fun dj job => if is_channel job then dj.emplace job.pos job else dj) ⟨[]⟩

/-- The designation write of `cancelJob`: at the job tile's local coordinate,
`designation.bits.dig = is_channel(job) ? Channel : Default`. -/
def resetDesignation (job : Job) (b : MapBlock) : MapBlock :=
  { b with designation := fun i j =>
      if i = local16 job.pos.x ∧ j = local16 job.pos.y then
        (if is_channel job then TileDigDesignation.Channel
         else TileDigDesignation.Default)
      else b.designation i j }

/-- The `tile_occupancy.bits.dig_marked = v` write at one local coordinate. -/
def setDigMarked (x y : Fin 16) (v : Bool) (b : MapBlock) : MapBlock :=
  { b with occupancy := fun i j => if i = x ∧ j = y then v else b.occupancy i j }

/-- The ready outcome of manage_safety on the block: `dig_marked = false` at
the local coordinate and `flags.bits.designated = true`. -/
def setReady (x y : Fin 16) (b : MapBlock) : MapBlock :=
  { setDigMarked x y false b with designated := true }

/-- `cancelJob(df::job*)`: a null job is a no-op; otherwise reset the job
tile's dig designation to the request state matching the job's kind (Channel
for a channel job, plain-dig Default otherwise) and remove the job from the
global job list (`Job::removeJob`). -/
def cancelJob (w : World) (jobOpt : Option Job) : World :=
  match jobOpt with
  | none => w
  | some job =>
    match w.getTileBlock job.pos with
    | none => w
    | some _ =>
      let w1 := w.updateBlock (blockKeyOf job.pos) (resetDesignation job)
      { w1 with jobs_list := w1.jobs_list.erase job }

/-- `DigJobs::cancel_job(pos)`: cancel the registered job at that exact tile,
if any (a registry miss is a no-op). -/
def DigJobs.cancel_job (dj : DigJobs) (pos : Coord) (w : World) : World :=
  match dj.find pos with
  | none => w
  | some job => cancelJob w (some job)

/-- One iteration of the `block->block_events` loop in
`ChannelManager::manage_safety`: designation-priority overlays with priority
below 6000 at the local coordinate drive the ready/not-ready outcome; every
other event is skipped. -/
def manage_safety_step (gd : GroupData) (jobs : DigJobs)
    (group : GroupData.Group) (blockPos : Coord) (x y : Fin 16) (tile : Coord)
    (wcur : World) (ev : BlockSquareEvent) : World :=
  match ev with
  | BlockSquareEvent.designation_priority priority =>
    if priority x y < 6000 then
      if is_group_ready gd group then
        wcur.updateBlock blockPos (setReady x y)
      else
        jobs.cancel_job tile (wcur.updateBlock blockPos (setDigMarked x y true))
    else wcur
  | BlockSquareEvent.other => wcur

/-- `ChannelManager::manage_safety(block, local, tile, tile_above)`: look up
`tile`'s group; when indexed, walk the block's event list applying
`manage_safety_step`. The `local` coordinate carries the in-block x, y as
passed by every caller (already reduced mod 16); `tile_above` is an argument
the body never reads. -/
def manage_safety (gd : GroupData) (jobs : DigJobs) (w : World)
    (blockPos : Coord) (lcl : Coord) (tile tile_above : Coord) : World :=
  match gd.find tile with
  | none => w
  | some group =>
    match w.blocks blockPos with
    | none => w
    | some block =>
      block.block_events.foldl
        (manage_safety_step gd jobs group blockPos (local16 lcl.x) (local16 lcl.y) tile)
        w

/-- The step function of `DigJobs::read`'s scan over the global job list. -/
def read_step (dj : DigJobs) (job : Job) : DigJobs :=
  if is_channel job then dj.emplace job.pos job else dj

/-- A Dig job used as concrete test data for the registry rebuild. -/
def jobD : Job := ⟨⟨0, 0, 0⟩, JobType.Dig⟩

/-- A world whose job list holds only the Dig job `jobD`. -/
def wD : World := ⟨fun _ => none, [jobD], ⟨1, 1, 1⟩⟩

/-- A channel job used as concrete cancellation test data. -/
def jobW : Job := ⟨⟨3, 2, 0⟩, JobType.DigChannel⟩

/-- A block containing `jobW`'s tile. -/
def bW : MapBlock :=
  ⟨fun _ _ => TileDigDesignation.Channel, fun _ _ => false, false, [], ⟨0, 0, 0⟩⟩

/-- A world holding `bW` and the job list [jobW]. -/
def wW : World := ⟨fun c => if c = ⟨0, 0, 0⟩ then some bW else none, [jobW], ⟨1, 1, 1⟩⟩

/-- A registry holding `jobW` at its tile. -/
def djW : DigJobs := ⟨[(⟨3, 2, 0⟩, jobW)]⟩

/-- A Channel-designated tile used as concrete safety-gate test data. -/
def tC : Coord := ⟨0, 0, 5⟩

/-- A tracker with the single group containing `tC`. -/
def gdC : GroupData := ⟨[{tC}], fun p => if p = tC then some 0 else none, ∅⟩

/-- A block for `tC`'s layer carrying no block events at all. -/
def bNoOverlay : MapBlock :=
  ⟨fun _ _ => TileDigDesignation.Channel, fun _ _ => false, false, [], ⟨0, 0, 5⟩⟩

/-- A world holding only `bNoOverlay`. -/
def wNoOverlay : World :=
  ⟨fun c => if c = ⟨0, 0, 5⟩ then some bNoOverlay else none, [], ⟨1, 1, 10⟩⟩

/-- The empty registry. -/
def djE : DigJobs := ⟨[]⟩

/-- The priority array of the concrete overlay: all zeroes. -/
def prC : Fin 16 → Fin 16 → Int := fun _ _ => 0

/-- A block for `tC`'s layer carrying one designation-priority overlay. -/
def bC : MapBlock :=
  ⟨fun _ _ => TileDigDesignation.Channel, fun _ _ => true, false,
    [BlockSquareEvent.designation_priority prC], ⟨0, 0, 5⟩⟩

/-- A world holding only `bC`. -/
def wC : World := ⟨fun c => if c = ⟨0, 0, 5⟩ then some bC else none, [], ⟨1, 1, 10⟩⟩

/-- `onStart(job)`'s core (inside the enabled/fortress-mode guards): for Dig
or Channel jobs, compute the local coordinate of the job's tile and the tile
above it, then call manage_safety with the job's block, the job's own tile
as the evaluated tile and the above tile as the final argument. -/
def onStart (job : Job) (gd : GroupData) (jobs : DigJobs) (w : World) : World :=
  if is_dig job || is_channel job then
    manage_safety gd jobs w (blockKeyOf job.pos)
      { job.pos with x := job.pos.x.emod 16, y := job.pos.y.emod 16 }
      job.pos job.pos.above
  else w

/-- Modelled from the spec: the behaviour C4 claims — "on job start(job): if
job kind ∈ {PlainDig, Channel}, evaluate safety of the tile directly above
the job's tile" — where evaluate(tile) is the SafetyGate entry of spec §4.2
applied to that tile, with that tile's block and local coordinate. -/
def onStart_claimed (job : Job) (gd : GroupData) (jobs : DigJobs) (w : World) :
    World :=
  if is_dig job || is_channel job then
    manage_safety gd jobs w (blockKeyOf job.pos.above)
      { job.pos.above with x := job.pos.x.emod 16, y := job.pos.y.emod 16 }
      job.pos.above job.pos.above.above
  else w

/-- A Dig job at the tracked tile `tC`. -/
def jobC4 : Job := ⟨tC, JobType.Dig⟩

/-- The per-neighbour loop state of `GroupData::add`: the group arena, the
free-slot pool, and the merge-host slot (`group_index`, whose presence is the
C++ `populated` flag). -/
structure AddLoopState where
  groups : List GroupData.Group
  free_spots : Finset Nat
  group_index : Option Nat

/-- One iteration of the neighbour loop of `GroupData::add` over the fixed
group index `m` (the C++ reads the member `groups_map`, which the loop never
modifies): an unindexed neighbour is skipped; the first indexed neighbour's
slot becomes the merge host; a later neighbour whose slot differs from the
host has its whole current group inserted into the host group, is cleared,
and its slot id added to the free pool. -/
def add_step (m : Coord → Option Nat) (s : AddLoopState) (neighbour : Coord) :
    AddLoopState :=
  match m neighbour with
  | none => s
  | some ni =>
    match s.group_index with
    | none => { s with group_index := some ni }
    | some hi =>
      if ni = hi then s
      else
        { groups := (s.groups.set hi (((s.groups[hi]?).getD ∅) ∪
              ((s.groups[ni]?).getD ∅))).set ni ∅,
          free_spots := insert ni s.free_spots,
          group_index := some hi }

/-- `GroupData::add(world_pos, block)`: no-op when the tile is already
indexed; otherwise run the neighbour loop over the 8 neighbours, allocate a
fresh slot when no adjacent group was found (preferring the smallest pooled
id — `*free_spots.begin()` of the ordered std::set — over appending a new
slot), insert the tile into the host group, and refresh the group-index entry
of every member of the host group (the C++ erase/emplace loop; pointwise it
overwrites the lookup at exactly the members of the final host group). The
C++ also receives the tile's block, stored beside each member coordinate and
recoverable as `blockKeyOf` of the member, so the embedding drops it. -/
def GroupData.add (gd : GroupData) (world_pos : Coord) : GroupData :=
  match gd.groups_map world_pos with
  | some _ => gd
  | none =>
    let s := (getNeighbours world_pos).foldl (add_step gd.groups_map)
      ⟨gd.groups, gd.free_spots, none⟩
    let a : AddLoopState × Nat :=
      match s.group_index with
      | some gi => (s, gi)
      | none =>
        if h : s.free_spots.Nonempty then
          ({ s with free_spots := s.free_spots.erase (s.free_spots.min' h) },
            s.free_spots.min' h)
        else
          ({ s with groups := s.groups ++ [∅] }, s.groups.length)
    let groups2 := a.1.groups.set a.2 (insert world_pos ((a.1.groups[a.2]?).getD ∅))
    let host : GroupData.Group := (groups2[a.2]?).getD ∅
    { groups := groups2,
      groups_map := fun p => if p ∈ host then some a.2 else gd.groups_map p,
      free_spots := a.1.free_spots }

/-- Consistency of a GroupData state: every group-index entry points into the
arena at a group containing the tile; every member of every arena group is
indexed at that group's slot; pooled free slots hold empty groups. -/
def GroupData.WF (gd : GroupData) : Prop :=
  (∀ p i, gd.groups_map p = some i → ∃ g, gd.groups[i]? = some g ∧ p ∈ g) ∧
  (∀ i g, gd.groups[i]? = some g → ∀ p ∈ g, gd.groups_map p = some i) ∧
  (∀ i ∈ gd.free_spots, gd.groups[i]? = some (∅ : GroupData.Group))

/-- The union of the groups stored at the listed slots. -/
def unionOver (G : List GroupData.Group) (l : List Nat) : GroupData.Group :=
  l.foldr (fun i a => ((G[i]?).getD ∅) ∪ a) ∅

/-- The total number of tracked tiles across all groups. -/
def totalTiles (gd : GroupData) : Nat :=
  ∑ i ∈ Finset.range gd.groups.length, ((gd.groups[i]?).getD ∅).card

/-- Description of the neighbour-loop state after the indexed neighbour slots
encountered so far are `seen` (in encounter order, duplicates kept), starting
from arena `G` and pool `F`. -/
def LoopInv (G : List GroupData.Group) (F : Finset Nat) (seen : List Nat)
    (s : AddLoopState) : Prop :=
  match seen with
  | [] => s = ⟨G, F, none⟩
  | host :: rest =>
    s.group_index = some host ∧
    s.groups.length = G.length ∧
    s.free_spots = F ∪ (rest.filter (fun j => decide (j ≠ host))).toFinset ∧
    s.groups[host]? = some (unionOver G (host :: rest)) ∧
    (∀ j ∈ rest, j ≠ host → s.groups[j]? = some ∅) ∧
    (∀ j, j ≠ host → j ∉ rest → s.groups[j]? = G[j]?)

/-- The tile whose insertion bridges two groups in the concrete merge test. -/
def pos6 : Coord := ⟨1, 0, 5⟩

/-- Left member of the concrete merge test. -/
def a6 : Coord := ⟨0, 0, 5⟩

/-- Right member of the concrete merge test. -/
def c6 : Coord := ⟨2, 0, 5⟩

/-- A tracker holding the two disjoint singleton groups {a6} and {c6}. -/
def gd6 : GroupData :=
  ⟨[{a6}, {c6}],
    fun p => if p = a6 then some 0 else if p = c6 then some 1 else none, ∅⟩

/-- `GroupData::foreach_tile(block, z)`: scan the 16x16 designation array and
add every Channel-designated tile at its world position
(`map_pos + local`, layer z). -/
def GroupData.foreach_tile (gd : GroupData) (block : MapBlock) (z : Int) :
    GroupData :=
  (List.finRange 16).foldl (fun gdx local_x =>
    (List.finRange 16).foldl (fun gdy local_y =>
      if is_channel_des (block.designation local_x local_y) then
        gdy.add ⟨block.map_pos.x + local_x.val, block.map_pos.y + local_y.val, z⟩
      else gdy) gdx) gd

/-- The block-column walk of `GroupData::foreach_block()`: for every (x, y)
within the extents, walk the layers top-down (`iz = z - 1` down to `0`) and
scan each present block (`if (block)`) with foreach_tile. -/
def GroupData.scan_blocks (gd : GroupData) (w : World) (ext : Extents) :
    GroupData :=
  (List.range ext.x).foldl (fun gdx (ix : Nat) =>
    (List.range ext.y).foldl (fun gdy (iy : Nat) =>
      ((List.range ext.z).reverse).foldl (fun gdz (iz : Nat) =>
        match w.blocks ⟨(ix : Int), (iy : Int), (iz : Int)⟩ with
        | some block => gdz.foreach_tile block (iz : Int)
        | none => gdz) gdy) gdx) gd

/-- `GroupData::foreach_block()`: the static getMapSize flag queries the map
size only when no cached value exists (`cache` is that static); then every
block column is walked top-down and each present block scanned. Returns the
new tracker and the extents actually used (the new cached value). -/
def GroupData.foreach_block (gd : GroupData) (w : World)
    (cache : Option Extents) : GroupData × Extents :=
  let ext := cache.getD w.size
  (gd.scan_blocks w ext, ext)

/-- `GroupData::read()`: scan the grid via foreach_block, rebuild the dig-job
registry, then add the tile of every Channel job in it (keyed at
`map_entry.first`, the job's position). -/
def GroupData.read (gd : GroupData) (w : World) (cache : Option Extents) :
    GroupData × DigJobs × Extents :=
  let fb := gd.foreach_block w cache
  let jobs := DigJobs.read w
  (jobs.jobs.foldl (fun g e => if is_channel e.2 then g.add e.1 else g) fb.1,
    jobs, fb.2)

/-- The empty tracker state (the state after delete_groups / enable). -/
def gdEmpty : GroupData := ⟨[], fun _ => none, ∅⟩

/-- A single-block world with one Channel designation at its origin tile. -/
def b7 : MapBlock :=
  ⟨fun i j => if i = 0 ∧ j = 0 then TileDigDesignation.Channel
    else TileDigDesignation.No,
    fun _ _ => false, false, [], ⟨0, 0, 0⟩⟩

/-- The world holding only `b7`. -/
def w7 : World := ⟨fun c => if c = ⟨0, 0, 0⟩ then some b7 else none, [], ⟨1, 1, 1⟩⟩

/-- The df::coord strict-weak order (lexicographic on x, then y, then z),
as a total ≤. Each C++ Group is a std::set ordered by it; Finset.sort with
this relation reproduces the member iteration order. -/
def coordLe (a b : Coord) : Prop :=
  a.x < b.x ∨ (a.x = b.x ∧ (a.y < b.y ∨ (a.y = b.y ∧ a.z ≤ b.z)))

instance : DecidableRel coordLe := fun a b => by
  unfold coordLe
  infer_instance

instance : IsTrans Coord coordLe := ⟨by
  intro a b c hab hbc
  unfold coordLe at hab hbc ⊢
  omega⟩

instance : IsAntisymm Coord coordLe := ⟨by
  intro a b hab hba
  unfold coordLe at hab hba
  have hx : a.x = b.x := by omega
  have hy : a.y = b.y := by omega
  have hz : a.z = b.z := by omega
  cases a
  cases b
  simp_all⟩

instance : IsTotal Coord coordLe := ⟨by
  intro a b
  unfold coordLe
  omega⟩

/-- The bookkeeping of one full rescan: the resulting world and manager
state, the two static extents caches afterwards (`manage_designations`'
t1/t2/zmax static and `foreach_block`'s own static), and the extents each of
the two sites actually used during this rescan. -/
structure RescanResult where
  world : World
  groups : GroupData
  jobs : DigJobs
  md_cache : Option Extents
  fb_cache : Option Extents
  used_md : Extents
  used_fb : Extents

/-- Modelled from the spec: `ChannelManager::build_groups` is declared in
channel-safely.h, which is not under src/; per the spec ("groups and indices
are fully rebuilt from grid contents on every full rescan") it clears the
component state and rebuilds it with `GroupData::read`. -/
def ChannelManager.build_groups (w : World) (cache : Option Extents) :
    GroupData × DigJobs × Extents :=
  GroupData.read gdEmpty w cache

/-- `ChannelManager::manage_designations(out)` (inside the fortress-mode
guard): query the map size only when the static flag is unset (`md_cache` is
that static), rebuild the groups, then walk every tile of every group: below
the top layer run manage_safety against the tile above, on the top layer
just clear the tile's marked unsafe bit. The C++ compares
`world_pos.z < zmax - 1` with uint32 zmax; every loaded map has zmax ≥ 1, so
the comparison is modelled over the integers. -/
def ChannelManager.manage_designations (w : World)
    (md_cache fb_cache : Option Extents) : RescanResult :=
  let ext := md_cache.getD w.size
  let bg := ChannelManager.build_groups w fb_cache
  let gd := bg.1
  let jobs := bg.2.1
  let w2 := gd.groups.foldl (fun wg group =>
    (group.sort coordLe).foldl (fun wt world_pos =>
      let lcl : Coord := ⟨world_pos.x.emod 16, world_pos.y.emod 16, world_pos.z⟩
      if world_pos.z < (ext.z : Int) - 1 then
        manage_safety gd jobs wt (blockKeyOf world_pos) lcl world_pos
          world_pos.above
      else
        wt.updateBlock (blockKeyOf world_pos)
          (setDigMarked (local16 lcl.x) (local16 lcl.y) false)) wg) w
  ⟨w2, gd, jobs, some ext, some bg.2.2, ext, bg.2.2⟩

/-- C1: for every group tracked by the component tracker, `is_group_ready`
returns true iff for every member tile the tile directly one layer above
either maps to no group in the group index or maps to an empty group; it
returns false whenever at least one member's overlying tile belongs to a
non-empty group. -/
theorem is_group_ready_iff_overlying_clear (gd : GroupData) (g : GroupData.Group) :
    is_group_ready gd g = true ↔
      ∀ t ∈ g, gd.find t.above = none ∨ gd.find t.above = some (∅ : GroupData.Group) := by
  unfold is_group_ready
  rw [decide_eq_true_iff]
  constructor
  · intro h t ht
    have := h t ht
    unfold tile_above_clear at this
    cases hf : gd.find t.above with
    | none => exact Or.inl rfl
    | some grp =>
      rw [hf] at this
      right
      rw [decide_eq_true_iff] at this
      rw [this]
  · intro h t ht
    unfold tile_above_clear
    cases hf : gd.find t.above with
    | none => rfl
    | some grp =>
      rcases h t ht with h0 | h0
      · rw [hf] at h0; cases h0
      · rw [hf] at h0
        injection h0 with h0
        subst h0
        simp

/-- C9: the outcome of manage_safety is independent of its tile_above
argument — two calls that differ only in tile_above perform exactly the same
state changes, because the body computes everything from the group of `tile`
and never reads tile_above. -/
theorem manage_safety_independent_of_tile_above (gd : GroupData)
    (jobs : DigJobs) (w : World) (blockPos lcl tile a b : Coord) :
    manage_safety gd jobs w blockPos lcl tile a =
      manage_safety gd jobs w blockPos lcl tile b := rfl

theorem find?_append_of_none {α} (p : α → Bool) (l1 l2 : List α)
    (h : l1.find? p = none) : (l1 ++ l2).find? p = l2.find? p := by
  induction l1 with
  | nil => rfl
  | cons a l ih =>
    rw [List.cons_append]
    cases hp : p a with
    | true => simp [List.find?, hp] at h
    | false =>
      simp only [List.find?, hp] at h ⊢
      exact ih h

theorem find?_cons_of_neg {α} (p : α → Bool) (a : α) (l : List α)
    (h : p a = false) : (a :: l).find? p = l.find? p := by
  simp [List.find?, h]

theorem find?_cons_of_pos {α} (p : α → Bool) (a : α) (l : List α)
    (h : p a = true) : (a :: l).find? p = some a := by
  simp [List.find?, h]

/-- Lookup in the registry built by folding `read_step`: the already-present
entry wins, otherwise the first matching Channel job of the scanned list. -/
theorem read_fold_find (l : List Job) (dj : DigJobs) (pos : Coord) :
    DigJobs.find (l.foldl read_step dj) pos =
      match DigJobs.find dj pos with
      | some j => some j
      | none => l.find? (fun j => is_channel j && decide (j.pos = pos)) := by
  induction l generalizing dj with
  | nil =>
    cases h : DigJobs.find dj pos <;> simp [List.foldl, h]
  | cons j l ih =>
    rw [List.foldl_cons, ih]
    by_cases hch : is_channel j = true
    · by_cases hpos : j.pos = pos
      · subst hpos
        cases h : DigJobs.find dj j.pos with
        | some jx => simp [read_step, hch, DigJobs.emplace, h]
        | none =>
          have hnone : dj.jobs.find? (fun e => decide (e.1 = j.pos)) = none := by
            unfold DigJobs.find at h
            cases hx : dj.jobs.find? (fun e => decide (e.1 = j.pos)) with
            | none => rfl
            | some v => rw [hx] at h; cases h
          have hstep : DigJobs.find (read_step dj j) j.pos = some j := by
            simp only [read_step, hch, if_true, DigJobs.emplace, h]
            unfold DigJobs.find
            rw [find?_append_of_none _ _ _ hnone]
            simp [List.find?]
          rw [hstep]
          rw [find?_cons_of_pos]
          simp [hch]
      · have hstep : DigJobs.find (read_step dj j) pos = DigJobs.find dj pos := by
          simp only [read_step, hch, if_true, DigJobs.emplace]
          cases he : DigJobs.find dj j.pos with
          | some jx => rfl
          | none =>
            unfold DigJobs.find
            congr 1
            have : ∀ l2 : List (Coord × Job),
                l2 = [(j.pos, j)] →
                (dj.jobs ++ l2).find? (fun e => decide (e.1 = pos)) =
                  dj.jobs.find? (fun e => decide (e.1 = pos)) := by
              intro l2 hl2
              subst hl2
              induction dj.jobs with
              | nil => simp [List.find?, hpos]
              | cons a t iht =>
                rw [List.cons_append]
                cases hp : (decide (a.1 = pos)) with
                | true =>
                  rw [find?_cons_of_pos (fun e => decide (e.1 = pos)) a _ hp,
                    find?_cons_of_pos (fun e => decide (e.1 = pos)) a _ hp]
                | false =>
                  rw [find?_cons_of_neg (fun e => decide (e.1 = pos)) a _ hp,
                    find?_cons_of_neg (fun e => decide (e.1 = pos)) a _ hp]
                  exact iht
            exact this _ rfl
        rw [hstep]
        cases h : DigJobs.find dj pos with
        | some jx => simp
        | none =>
          rw [find?_cons_of_neg]
          simp [hpos]
    · have hstep : read_step dj j = dj := by simp [read_step, hch]
      rw [hstep]
      cases h : DigJobs.find dj pos with
      | some jx => simp
      | none =>
        rw [find?_cons_of_neg]
        simp [Bool.eq_false_iff.mpr hch]

/-- C5 amended theorem: the registry rebuilt by `DigJobs::read` answers every
position lookup with the first Channel job of the external job list at that
exact tile position — so exactly the Channel jobs are retained, keyed by tile
position, and Dig jobs are excluded. -/
theorem DigJobs_read_keeps_exactly_channel_jobs (w : World) (pos : Coord) :
    DigJobs.find (DigJobs.read w) pos =
      w.jobs_list.find? (fun j => is_channel j && decide (j.pos = pos)) := by
  have h : DigJobs.read w = w.jobs_list.foldl read_step ⟨[]⟩ := rfl
  rw [h, read_fold_find]
  rfl

/-- C5 counterexample: the claim says a job of kind Dig is retained by the
rebuild; on a job list holding exactly one Dig job the rebuilt registry is
empty and the lookup at the job's tile position misses. -/
theorem DigJobs_read_drops_dig_jobs :
    is_dig jobD = true ∧ wD.jobs_list = [jobD] ∧
      (DigJobs.read wD).jobs = [] ∧
      DigJobs.find (DigJobs.read wD) jobD.pos = none :=
  ⟨rfl, rfl, rfl, rfl⟩

/-- C8: `cancel` is a no-op when the job is already gone — a registry miss in
`DigJobs::cancel_job` or a null job in `cancelJob`; otherwise it resets the
job tile's designation to the request state matching the job's kind (Channel
for a channel job, plain-dig Default otherwise, never the neutral No state)
and removes the job from the external job list. -/
theorem cancel_job_resets_request_state (dj : DigJobs) (pos : Coord) (w : World) :
    (cancelJob w none = w) ∧
    (dj.find pos = none → dj.cancel_job pos w = w) ∧
    (∀ job, dj.find pos = some job →
      ∀ b, w.getTileBlock job.pos = some b →
        (dj.cancel_job pos w).jobs_list = w.jobs_list.erase job ∧
        ∃ b2, (dj.cancel_job pos w).getTileBlock job.pos = some b2 ∧
          b2.designation (local16 job.pos.x) (local16 job.pos.y) =
            (if is_channel job then TileDigDesignation.Channel
             else TileDigDesignation.Default) ∧
          b2.designation (local16 job.pos.x) (local16 job.pos.y) ≠
            TileDigDesignation.No) := by
  refine ⟨rfl, ?_, ?_⟩
  · intro h
    unfold DigJobs.cancel_job
    rw [h]
  · intro job hj b hb
    have hb2 : w.blocks (blockKeyOf job.pos) = some b := hb
    simp only [DigJobs.cancel_job, hj, cancelJob, World.getTileBlock,
      World.updateBlock, hb2]
    refine ⟨trivial, ?_⟩
    refine ⟨{ b with designation := fun i j =>
        if i = local16 job.pos.x ∧ j = local16 job.pos.y then
          (if is_channel job then TileDigDesignation.Channel
           else TileDigDesignation.Default)
        else b.designation i j }, ?_, ?_, ?_⟩
    · simp [resetDesignation]
    · simp [resetDesignation]
    · cases hc : is_channel job <;> simp [resetDesignation, hc]

/-- Witness for C8 at a concrete registry hit: the hypotheses hold and the
cancelled job leaves the list while its tile designation is reset to
Channel. -/
theorem cancel_job_resets_request_state_witness :
    djW.find ⟨3, 2, 0⟩ = some jobW ∧
    wW.getTileBlock jobW.pos = some bW ∧
    ((djW.cancel_job ⟨3, 2, 0⟩ wW).jobs_list = wW.jobs_list.erase jobW ∧
      ∃ b2, (djW.cancel_job ⟨3, 2, 0⟩ wW).getTileBlock jobW.pos = some b2 ∧
        b2.designation (local16 jobW.pos.x) (local16 jobW.pos.y) =
          (if is_channel jobW then TileDigDesignation.Channel
           else TileDigDesignation.Default) ∧
        b2.designation (local16 jobW.pos.x) (local16 jobW.pos.y) ≠
          TileDigDesignation.No) :=
  ⟨rfl, rfl,
    (cancel_job_resets_request_state djW ⟨3, 2, 0⟩ wW).2.2 jobW rfl bW rfl⟩

/-- C2 counterexample: `tC` maps to a non-empty, ready group and its chunk has
no designation-priority overlay, yet manage_safety changes nothing at all — in
particular the ready outcome (setting the chunk's designated flag) is not
applied, so the tile is skipped rather than treated as fully eligible. -/
theorem manage_safety_cex_no_overlay :
    gdC.find tC = some {tC} ∧
    ({tC} : GroupData.Group) ≠ ∅ ∧
    bNoOverlay.block_events = [] ∧
    is_group_ready gdC {tC} = true ∧
    manage_safety gdC djE wNoOverlay ⟨0, 0, 5⟩ tC tC tC.above = wNoOverlay ∧
    (wNoOverlay.blocks ⟨0, 0, 5⟩).map MapBlock.designated = some false :=
  ⟨rfl, by decide, rfl, by decide, rfl, rfl⟩

theorem foldl_step_no_priority (gd : GroupData) (jobs : DigJobs)
    (group : GroupData.Group) (blockPos : Coord) (x y : Fin 16) (tile : Coord)
    (l : List BlockSquareEvent) (h : ∀ ev ∈ l, ev.isPriority = false) :
    ∀ w, l.foldl (manage_safety_step gd jobs group blockPos x y tile) w = w := by
  induction l with
  | nil => intro w; rfl
  | cons ev l ih =>
    intro w
    have hev := h ev (List.mem_cons_self ev l)
    have hl : ∀ e ∈ l, e.isPriority = false :=
      fun e he => h e (List.mem_cons_of_mem ev he)
    cases ev with
    | designation_priority pr => simp [BlockSquareEvent.isPriority] at hev
    | other =>
      rw [List.foldl_cons]
      exact ih hl w

/-- C2 amended theorem: a tile whose chunk has no designation-priority overlay
is skipped entirely by manage_safety — the evaluation leaves the world
unchanged, whatever the group and readiness; the tile is treated as eligible
only through a designation-priority overlay. -/
theorem manage_safety_skips_without_overlay (gd : GroupData) (jobs : DigJobs)
    (w : World) (blockPos lcl tile tile_above : Coord) (b : MapBlock)
    (hb : w.blocks blockPos = some b)
    (hno : ∀ ev ∈ b.block_events, ev.isPriority = false) :
    manage_safety gd jobs w blockPos lcl tile tile_above = w := by
  unfold manage_safety
  cases hf : gd.find tile with
  | none => rfl
  | some group =>
    rw [hb]
    exact foldl_step_no_priority gd jobs group blockPos (local16 lcl.x)
      (local16 lcl.y) tile b.block_events hno w

/-- Witness for the amended C2 at a concrete overlay-free chunk. -/
theorem manage_safety_skips_without_overlay_witness :
    wNoOverlay.blocks ⟨0, 0, 5⟩ = some bNoOverlay ∧
    (∀ ev ∈ bNoOverlay.block_events, ev.isPriority = false) ∧
    manage_safety gdC djE wNoOverlay ⟨0, 0, 5⟩ tC tC tC.above = wNoOverlay :=
  ⟨rfl, by simp [bNoOverlay],
    manage_safety_skips_without_overlay gdC djE wNoOverlay ⟨0, 0, 5⟩ tC tC
      tC.above bNoOverlay rfl (by simp [bNoOverlay])⟩

theorem foldl_step_single_priority (gd : GroupData) (jobs : DigJobs)
    (group : GroupData.Group) (blockPos : Coord) (x y : Fin 16) (tile : Coord)
    (l1 l2 : List BlockSquareEvent) (pr : Fin 16 → Fin 16 → Int)
    (h1 : ∀ ev ∈ l1, ev.isPriority = false)
    (h2 : ∀ ev ∈ l2, ev.isPriority = false) (w : World) :
    (l1 ++ BlockSquareEvent.designation_priority pr :: l2).foldl
        (manage_safety_step gd jobs group blockPos x y tile) w =
      manage_safety_step gd jobs group blockPos x y tile w
        (BlockSquareEvent.designation_priority pr) := by
  rw [List.foldl_append]
  rw [foldl_step_no_priority gd jobs group blockPos x y tile l1 h1 w]
  rw [List.foldl_cons]
  exact foldl_step_no_priority gd jobs group blockPos x y tile l2 h2 _

theorem updateBlock_blocks_self (w : World) (k : Coord) (f : MapBlock → MapBlock) :
    (w.updateBlock k f).blocks k = (w.blocks k).map f := by
  simp [World.updateBlock]

theorem updateBlock_blocks_ne (w : World) (k : Coord) (f : MapBlock → MapBlock)
    (c : Coord) (h : ¬(c = k)) : (w.updateBlock k f).blocks c = w.blocks c := by
  simp [World.updateBlock, h]

theorem updateBlock_jobs_list (w : World) (k : Coord) (f : MapBlock → MapBlock) :
    (w.updateBlock k f).jobs_list = w.jobs_list := rfl

theorem cancelJob_some_eq (w : World) (job : Job) (bb : MapBlock)
    (h : w.getTileBlock job.pos = some bb) :
    cancelJob w (some job) =
      { w.updateBlock (blockKeyOf job.pos) (resetDesignation job) with
        jobs_list := w.jobs_list.erase job } := by
  simp only [cancelJob, h]
  rfl

theorem cancel_job_miss (dj : DigJobs) (pos : Coord) (w : World)
    (h : dj.find pos = none) : dj.cancel_job pos w = w := by
  simp only [DigJobs.cancel_job, h]

theorem cancel_job_hit (dj : DigJobs) (pos : Coord) (w : World) (job : Job)
    (h : dj.find pos = some job) : dj.cancel_job pos w = cancelJob w (some job) := by
  simp only [DigJobs.cancel_job, h]

/-- C3: for a tile that maps to a group and passes the priority guard (its
chunk carries a designation-priority overlay whose priority at the tile is
below 6000): if the group is ready, manage_safety clears the tile's marked
unsafe occupancy bit and sets the owning chunk's designated flag; if the group
is not ready, it sets marked unsafe and cancels the job occupying that exact
tile when one is registered — the not-ready path never clears any tile's dig
designation (with no registered job every designation is untouched; with a
registered channel job the job's tile keeps a Channel request designation), so
the designation is left intact for later re-offering. -/
theorem manage_safety_applies_outcome (gd : GroupData) (jobs : DigJobs)
    (w : World) (blockPos lcl tile tile_above : Coord)
    (group : GroupData.Group) (b : MapBlock)
    (l1 l2 : List BlockSquareEvent) (pr : Fin 16 → Fin 16 → Int)
    (hg : gd.find tile = some group)
    (hb : w.blocks blockPos = some b)
    (hev : b.block_events = l1 ++ BlockSquareEvent.designation_priority pr :: l2)
    (h1 : ∀ ev ∈ l1, ev.isPriority = false)
    (h2 : ∀ ev ∈ l2, ev.isPriority = false)
    (hpr : pr (local16 lcl.x) (local16 lcl.y) < 6000) :
    (is_group_ready gd group = true →
      ∃ b2, (manage_safety gd jobs w blockPos lcl tile tile_above).blocks blockPos
          = some b2 ∧
        b2.occupancy (local16 lcl.x) (local16 lcl.y) = false ∧
        b2.designated = true ∧
        (manage_safety gd jobs w blockPos lcl tile tile_above).jobs_list
          = w.jobs_list) ∧
    (is_group_ready gd group = false →
      (∃ b2, (manage_safety gd jobs w blockPos lcl tile tile_above).blocks blockPos
          = some b2 ∧
        b2.occupancy (local16 lcl.x) (local16 lcl.y) = true) ∧
      (jobs.find tile = none →
        (manage_safety gd jobs w blockPos lcl tile tile_above).jobs_list
          = w.jobs_list ∧
        (∀ k b0, w.blocks k = some b0 →
          ∃ b1, (manage_safety gd jobs w blockPos lcl tile tile_above).blocks k
              = some b1 ∧
            b1.designation = b0.designation)) ∧
      (∀ job, jobs.find tile = some job → is_channel job = true →
        ∀ bj, w.blocks (blockKeyOf job.pos) = some bj →
          (manage_safety gd jobs w blockPos lcl tile tile_above).jobs_list
            = w.jobs_list.erase job ∧
          ∃ b3, (manage_safety gd jobs w blockPos lcl tile tile_above).blocks
              (blockKeyOf job.pos) = some b3 ∧
            b3.designation (local16 job.pos.x) (local16 job.pos.y)
              = TileDigDesignation.Channel)) := by
  have hred : manage_safety gd jobs w blockPos lcl tile tile_above =
      manage_safety_step gd jobs group blockPos (local16 lcl.x) (local16 lcl.y)
        tile w (BlockSquareEvent.designation_priority pr) := by
    simp only [manage_safety, hg, hb, hev]
    exact foldl_step_single_priority gd jobs group blockPos (local16 lcl.x)
      (local16 lcl.y) tile l1 l2 pr h1 h2 w
  rw [hred]
  constructor
  · intro hready
    simp only [manage_safety_step, if_pos hpr, hready, if_true]
    rw [updateBlock_blocks_self, hb]
    refine ⟨_, rfl, ?_, rfl, rfl⟩
    simp [setReady, setDigMarked]
  · intro hnotready
    rw [Bool.eq_false_iff] at hnotready
    simp only [manage_safety_step, if_pos hpr, if_neg hnotready]
    have hw1self : (w.updateBlock blockPos
        (setDigMarked (local16 lcl.x) (local16 lcl.y) true)).blocks blockPos
        = some (setDigMarked (local16 lcl.x) (local16 lcl.y) true b) := by
      rw [updateBlock_blocks_self, hb]
      rfl
    refine ⟨?_, ?_, ?_⟩
    · cases hfind : jobs.find tile with
      | none =>
        rw [cancel_job_miss _ _ _ hfind, hw1self]
        refine ⟨_, rfl, ?_⟩
        simp [setDigMarked]
      | some job =>
        rw [cancel_job_hit _ _ _ _ hfind]
        cases hjb : (w.updateBlock blockPos
            (setDigMarked (local16 lcl.x) (local16 lcl.y) true)).getTileBlock job.pos with
        | none =>
          have : cancelJob (w.updateBlock blockPos
              (setDigMarked (local16 lcl.x) (local16 lcl.y) true)) (some job) =
              (w.updateBlock blockPos
                (setDigMarked (local16 lcl.x) (local16 lcl.y) true)) := by
            simp only [cancelJob, hjb]
          rw [this, hw1self]
          refine ⟨_, rfl, ?_⟩
          simp [setDigMarked]
        | some bjx =>
          rw [cancelJob_some_eq _ _ _ hjb]
          by_cases hk : blockPos = blockKeyOf job.pos
          · show ∃ b2, ((w.updateBlock blockPos _).updateBlock
                (blockKeyOf job.pos) _).blocks blockPos = some b2 ∧ _
            rw [← hk, updateBlock_blocks_self, hw1self]
            refine ⟨_, rfl, ?_⟩
            simp [resetDesignation, setDigMarked]
          · show ∃ b2, ((w.updateBlock blockPos _).updateBlock
                (blockKeyOf job.pos) _).blocks blockPos = some b2 ∧ _
            rw [updateBlock_blocks_ne _ _ _ _ hk, hw1self]
            refine ⟨_, rfl, ?_⟩
            simp [setDigMarked]
    · intro hfind
      rw [cancel_job_miss _ _ _ hfind]
      refine ⟨rfl, ?_⟩
      intro k b0 hk0
      by_cases hk : k = blockPos
      · subst hk
        rw [updateBlock_blocks_self, hk0]
        exact ⟨_, rfl, rfl⟩
      · rw [updateBlock_blocks_ne _ _ _ _ hk, hk0]
        exact ⟨_, rfl, rfl⟩
    · intro job hfind hchan bj hbj
      rw [cancel_job_hit _ _ _ _ hfind]
      have hjb : (w.updateBlock blockPos
          (setDigMarked (local16 lcl.x) (local16 lcl.y) true)).getTileBlock job.pos
          = some (if blockKeyOf job.pos = blockPos
              then setDigMarked (local16 lcl.x) (local16 lcl.y) true bj else bj) := by
        unfold World.getTileBlock
        by_cases hk : blockKeyOf job.pos = blockPos
        · rw [hk, updateBlock_blocks_self, ← hk, hbj]
          simp [hk]
        · rw [updateBlock_blocks_ne _ _ _ _ hk, hbj]
          simp [hk]
      rw [cancelJob_some_eq _ _ _ hjb]
      refine ⟨rfl, ?_⟩
      show ∃ b3, ((w.updateBlock blockPos _).updateBlock
          (blockKeyOf job.pos) _).blocks (blockKeyOf job.pos) = some b3 ∧ _
      rw [updateBlock_blocks_self]
      unfold World.getTileBlock at hjb
      rw [hjb]
      refine ⟨_, rfl, ?_⟩
      simp [resetDesignation, hchan]

/-- Witness for C3 at a concrete eligible, ready tile: the marked unsafe bit
is cleared and the chunk marked designated. -/
theorem manage_safety_applies_outcome_witness :
    gdC.find tC = some {tC} ∧
    wC.blocks ⟨0, 0, 5⟩ = some bC ∧
    bC.block_events = [] ++ BlockSquareEvent.designation_priority prC :: [] ∧
    prC (local16 tC.x) (local16 tC.y) < 6000 ∧
    is_group_ready gdC {tC} = true ∧
    ∃ b2, (manage_safety gdC djE wC ⟨0, 0, 5⟩ tC tC tC.above).blocks ⟨0, 0, 5⟩
        = some b2 ∧
      b2.occupancy (local16 tC.x) (local16 tC.y) = false ∧
      b2.designated = true ∧
      (manage_safety gdC djE wC ⟨0, 0, 5⟩ tC tC tC.above).jobs_list = wC.jobs_list :=
  ⟨rfl, rfl, rfl, by decide, by decide,
    (manage_safety_applies_outcome gdC djE wC ⟨0, 0, 5⟩ tC tC tC.above {tC} bC
      [] [] prC rfl rfl rfl (by simp) (by simp) (by decide)).1 (by decide)⟩

/-- C4 counterexample: for a started Dig job at `tC`, whose own tile belongs
to a ready group while the tile above it maps to no group, evaluating the
tile above (the claimed behaviour) changes nothing, yet the handler does
change state — it sets the designated flag of the job tile's own chunk — so
the handler evaluates the safety of the job's own tile, not of the tile
above. -/
theorem onStart_cex :
    gdC.find tC.above = none ∧
    onStart_claimed jobC4 gdC djE wC = wC ∧
    ((onStart jobC4 gdC djE wC).blocks ⟨0, 0, 5⟩).map MapBlock.designated
      = some true ∧
    (wC.blocks ⟨0, 0, 5⟩).map MapBlock.designated = some false :=
  ⟨rfl, rfl, by decide, rfl⟩

/-- C4 amended: for Dig/Channel jobs the on-start handler evaluates the
safety of the job's own tile — it calls manage_safety with the job's tile as
the evaluated tile (with its block and local coordinate); the tile above is
passed only as the unused final argument, so the outcome equals a safety
evaluation of the job's own tile with any tile_above value. -/
theorem onStart_evaluates_job_tile (job : Job) (gd : GroupData)
    (jobs : DigJobs) (w : World)
    (hkind : is_dig job = true ∨ is_channel job = true) (ta : Coord) :
    onStart job gd jobs w =
      manage_safety gd jobs w (blockKeyOf job.pos)
        { job.pos with x := job.pos.x.emod 16, y := job.pos.y.emod 16 }
        job.pos ta := by
  unfold onStart
  have hc : (is_dig job || is_channel job) = true := by
    rcases hkind with h | h <;> simp [h]
  rw [hc]
  rfl

/-- Witness for the amended C4 at the concrete Dig job. -/
theorem onStart_evaluates_job_tile_witness :
    (is_dig jobC4 = true ∨ is_channel jobC4 = true) ∧
    onStart jobC4 gdC djE wC =
      manage_safety gdC djE wC (blockKeyOf jobC4.pos)
        { jobC4.pos with x := jobC4.pos.x.emod 16, y := jobC4.pos.y.emod 16 }
        jobC4.pos tC :=
  ⟨Or.inl rfl, onStart_evaluates_job_tile jobC4 gdC djE wC (Or.inl rfl) tC⟩

theorem mem_unionOver (G : List GroupData.Group) (l : List Nat) (q : Coord) :
    q ∈ unionOver G l ↔ ∃ i ∈ l, q ∈ (G[i]?).getD ∅ := by
  induction l with
  | nil => simp [unionOver]
  | cons i l ih =>
    show q ∈ ((G[i]?).getD ∅) ∪ unionOver G l ↔ _
    rw [Finset.mem_union, ih]
    simp

theorem add_step_inv (m : Coord → Option Nat) (G : List GroupData.Group)
    (F : Finset Nat)
    (hm : ∀ p i, m p = some i → ∃ g, G[i]? = some g ∧ p ∈ g)
    (seen : List Nat) (s : AddLoopState) (n : Coord)
    (hinv : LoopInv G F seen s) :
    LoopInv G F (seen ++ (m n).toList) (add_step m s n) := by
  cases hmn : m n with
  | none =>
    have hst : add_step m s n = s := by simp [add_step, hmn]
    rw [hst]
    simpa using hinv
  | some ni =>
    show LoopInv G F (seen ++ [ni]) (add_step m s n)
    obtain ⟨gni, hgni, hngni⟩ := hm n ni hmn
    have hnilt : ni < G.length := by
      rcases List.getElem?_eq_some.mp hgni with ⟨hlt, _⟩
      exact hlt
    cases seen with
    | nil =>
      rw [show s = ⟨G, F, none⟩ from hinv]
      have hst : add_step m (⟨G, F, none⟩ : AddLoopState) n =
          ⟨G, F, some ni⟩ := by simp [add_step, hmn]
      rw [hst, List.nil_append]
      refine ⟨rfl, rfl, by simp, ?_, ?_, ?_⟩
      · rw [hgni]
        have : unionOver G [ni] = gni := by
          show ((G[ni]?).getD ∅) ∪ ∅ = gni
          rw [hgni]
          simp
        rw [this]
      · intro j hj
        simp at hj
      · intro j _ _
        rfl
    | cons host rest =>
      obtain ⟨h1, h2, h3, h4, h5, h6⟩ := hinv
      have hhostlt : host < s.groups.length := by
        rcases List.getElem?_eq_some.mp h4 with ⟨hlt, _⟩
        exact hlt
      have hniltS : ni < s.groups.length := by rw [h2]; exact hnilt
      by_cases hni : ni = host
      · subst hni
        have hst : add_step m s n = s := by simp [add_step, hmn, h1]
        rw [hst, List.cons_append]
        refine ⟨h1, h2, ?_, ?_, ?_, ?_⟩
        · rw [h3, List.filter_append]
          simp
        · rw [h4]
          have : unionOver G (ni :: rest) = unionOver G (ni :: (rest ++ [ni])) := by
            ext q
            rw [mem_unionOver, mem_unionOver]
            constructor
            · rintro ⟨i, hi, hq⟩
              refine ⟨i, ?_, hq⟩
              rcases List.mem_cons.mp hi with h | h
              · exact List.mem_cons.mpr (Or.inl h)
              · exact List.mem_cons.mpr (Or.inr (List.mem_append.mpr (Or.inl h)))
            · rintro ⟨i, hi, hq⟩
              refine ⟨i, ?_, hq⟩
              rcases List.mem_cons.mp hi with h | h
              · exact List.mem_cons.mpr (Or.inl h)
              · rcases List.mem_append.mp h with h | h
                · exact List.mem_cons.mpr (Or.inr h)
                · simp at h
                  subst h
                  exact List.mem_cons.mpr (Or.inl rfl)
          rw [← this]
        · intro j hj hne
          rcases List.mem_append.mp hj with h | h
          · exact h5 j h hne
          · simp at h
            exact absurd h hne
        · intro j hne hnin
          exact h6 j hne (fun hj => hnin (List.mem_append.mpr (Or.inl hj)))
      · have hst : add_step m s n =
            ⟨(s.groups.set host (((s.groups[host]?).getD ∅) ∪
                ((s.groups[ni]?).getD ∅))).set ni ∅,
              insert ni s.free_spots, some host⟩ := by
          simp [add_step, hmn, h1, hni]
        rw [hst, List.cons_append]
        have hlen2 : ((s.groups.set host (((s.groups[host]?).getD ∅) ∪
            ((s.groups[ni]?).getD ∅))).set ni ∅).length = G.length := by
          simp [h2]
        refine ⟨rfl, hlen2, ?_, ?_, ?_, ?_⟩
        · show insert ni s.free_spots = _
          rw [h3, List.filter_append]
          have : [ni].filter (fun j => decide (j ≠ host)) = [ni] := by
            simp [hni]
          rw [this]
          ext a
          simp [List.mem_toFinset, List.mem_filter]
          tauto
        · show ((s.groups.set host _).set ni ∅)[host]? = _
          rw [List.getElem?_set_ne hni, List.getElem?_set_self hhostlt]
          have hU : ((s.groups[host]?).getD ∅) ∪ ((s.groups[ni]?).getD ∅) =
              unionOver G (host :: (rest ++ [ni])) := by
            have hUhost : (s.groups[host]?).getD ∅ = unionOver G (host :: rest) := by
              rw [h4]; rfl
            by_cases hmem : ni ∈ rest
            · have : (s.groups[ni]?).getD ∅ = (∅ : GroupData.Group) := by
                rw [h5 ni hmem hni]; rfl
              rw [this, hUhost, Finset.union_empty]
              ext q
              rw [mem_unionOver, mem_unionOver]
              constructor
              · rintro ⟨i, hi, hq⟩
                refine ⟨i, ?_, hq⟩
                rcases List.mem_cons.mp hi with h | h
                · exact List.mem_cons.mpr (Or.inl h)
                · exact List.mem_cons.mpr (Or.inr (List.mem_append.mpr (Or.inl h)))
              · rintro ⟨i, hi, hq⟩
                refine ⟨i, ?_, hq⟩
                rcases List.mem_cons.mp hi with h | h
                · exact List.mem_cons.mpr (Or.inl h)
                · rcases List.mem_append.mp h with h | h
                  · exact List.mem_cons.mpr (Or.inr h)
                  · simp at h
                    subst h
                    exact List.mem_cons.mpr (Or.inr hmem)
            · have : (s.groups[ni]?).getD ∅ = (G[ni]?).getD ∅ := by
                rw [h6 ni hni hmem]
              rw [this, hUhost]
              ext q
              rw [Finset.mem_union, mem_unionOver, mem_unionOver]
              constructor
              · rintro (⟨i, hi, hq⟩ | hq)
                · refine ⟨i, ?_, hq⟩
                  rcases List.mem_cons.mp hi with h | h
                  · exact List.mem_cons.mpr (Or.inl h)
                  · exact List.mem_cons.mpr (Or.inr (List.mem_append.mpr (Or.inl h)))
                · exact ⟨ni, List.mem_cons.mpr (Or.inr (List.mem_append.mpr
                    (Or.inr (List.mem_singleton.mpr rfl)))), hq⟩
              · rintro ⟨i, hi, hq⟩
                rcases List.mem_cons.mp hi with h | h
                · exact Or.inl ⟨i, List.mem_cons.mpr (Or.inl h), hq⟩
                · rcases List.mem_append.mp h with h | h
                  · exact Or.inl ⟨i, List.mem_cons.mpr (Or.inr h), hq⟩
                  · simp at h
                    subst h
                    exact Or.inr hq
          rw [hU]
        · intro j hj hne
          rcases List.mem_append.mp hj with h | h
          · by_cases hjni : j = ni
            · subst hjni
              show ((s.groups.set host _).set j ∅)[j]? = some ∅
              rw [List.getElem?_set_self]
              simp [hhostlt, hniltS]
            · show ((s.groups.set host _).set ni ∅)[j]? = some ∅
              rw [List.getElem?_set_ne (fun hh => hjni hh.symm),
                List.getElem?_set_ne (fun hh => hne hh.symm)]
              exact h5 j h hne
          · simp at h
            subst h
            show ((s.groups.set host _).set j ∅)[j]? = some ∅
            rw [List.getElem?_set_self]
            simp [hhostlt, hniltS]
        · intro j hne hnin
          have hjrest : j ∉ rest := fun hj => hnin (List.mem_append.mpr (Or.inl hj))
          have hjni : j ≠ ni := fun hj => hnin (List.mem_append.mpr (Or.inr (by
            simp [hj])))
          show ((s.groups.set host _).set ni ∅)[j]? = G[j]?
          rw [List.getElem?_set_ne (fun hh => hjni hh.symm),
            List.getElem?_set_ne (fun hh => hne hh.symm)]
          exact h6 j hne hjrest

theorem foldl_add_step_inv (m : Coord → Option Nat) (G : List GroupData.Group)
    (F : Finset Nat)
    (hm : ∀ p i, m p = some i → ∃ g, G[i]? = some g ∧ p ∈ g) :
    ∀ (l : List Coord) (seen : List Nat) (s : AddLoopState),
      LoopInv G F seen s →
      LoopInv G F (seen ++ l.filterMap m) (l.foldl (add_step m) s) := by
  intro l
  induction l with
  | nil =>
    intro seen s h
    simpa using h
  | cons n l ih =>
    intro seen s h
    rw [List.foldl_cons]
    have h1 := add_step_inv m G F hm seen s n h
    have h2 := ih (seen ++ (m n).toList) (add_step m s n) h1
    cases hmn : m n with
    | none =>
      rw [List.filterMap_cons_none hmn]
      rw [hmn] at h2
      simpa using h2
    | some ni =>
      rw [List.filterMap_cons_some hmn]
      rw [hmn] at h2
      simpa [List.append_assoc] using h2

/-- C6: inserting an unindexed tile whose 8 neighbours reference at least two
distinct slots (N ≥ 2 previously disjoint groups; the first-found slot `host`
is the merge host) in a consistent tracker state produces a single group at
`host` whose membership is the union of the groups of all referenced slots
plus the new tile; every other referenced slot is emptied and its id returned
to the free pool; the total number of tracked tiles across all groups is
preserved by the merge — the count changes only by the one newly inserted
tile, no tracked tile being lost or duplicated; and the group index
afterwards maps every member of the resulting group to the host slot. -/
theorem add_merges_adjacent_groups (gd : GroupData) (pos : Coord)
    (host : Nat) (rest : List Nat)
    (hwf : gd.WF)
    (hnew : gd.groups_map pos = none)
    (hseen : (getNeighbours pos).filterMap gd.groups_map = host :: rest)
    (hN2 : ∃ j ∈ rest, j ≠ host) :
    ((gd.add pos).groups[host]? =
        some (insert pos (unionOver gd.groups (host :: rest))) ∧
      (∀ q, q ∈ insert pos (unionOver gd.groups (host :: rest)) ↔
        (q = pos ∨ ∃ i ∈ host :: rest, q ∈ ((gd.groups[i]?).getD ∅)))) ∧
    (∀ i ∈ host :: rest, i ≠ host →
      (gd.add pos).groups[i]? = some ∅ ∧ i ∈ (gd.add pos).free_spots) ∧
    totalTiles (gd.add pos) = totalTiles gd + 1 ∧
    (∀ q, q ∈ insert pos (unionOver gd.groups (host :: rest)) →
      (gd.add pos).groups_map q = some host) := by
  have hm := hwf.1
  set s := (getNeighbours pos).foldl (add_step gd.groups_map)
    ⟨gd.groups, gd.free_spots, none⟩ with hs
  have hinv : LoopInv gd.groups gd.free_spots (host :: rest) s := by
    have h0 := foldl_add_step_inv gd.groups_map gd.groups gd.free_spots hm
      (getNeighbours pos) [] ⟨gd.groups, gd.free_spots, none⟩ rfl
    rw [List.nil_append, hseen] at h0
    exact h0
  obtain ⟨h1, h2, h3, h4, h5, h6⟩ := hinv
  have hhostlt : host < s.groups.length := (List.getElem?_eq_some.mp h4).1
  have hadd : gd.add pos =
      ⟨s.groups.set host (insert pos (unionOver gd.groups (host :: rest))),
        fun p => if p ∈ insert pos (unionOver gd.groups (host :: rest))
          then some host else gd.groups_map p,
        s.free_spots⟩ := by
    simp only [GroupData.add, hnew, ← hs]
    simp only [h1, h4, Option.getD_some, List.getElem?_set_self hhostlt]
  have hSlt : ∀ i ∈ host :: rest, i < gd.groups.length := by
    intro i hi
    rw [← hseen] at hi
    rcases List.mem_filterMap.mp hi with ⟨n, _, hmn⟩
    rcases hm n i hmn with ⟨g, hg, _⟩
    exact (List.getElem?_eq_some.mp hg).1
  have hmemberOf : ∀ (q : Coord) (i : Nat), q ∈ ((gd.groups[i]?).getD ∅) →
      ∃ g, gd.groups[i]? = some g ∧ q ∈ g := by
    intro q i hq
    cases hgi : gd.groups[i]? with
    | none => rw [hgi] at hq; simp at hq
    | some g => rw [hgi] at hq; exact ⟨g, rfl, hq⟩
  have hposnotin : pos ∉ unionOver gd.groups (host :: rest) := by
    intro hq
    rcases (mem_unionOver _ _ _).mp hq with ⟨i, _, hqi⟩
    rcases hmemberOf pos i hqi with ⟨g, hg, hpg⟩
    have := hwf.2.1 i g hg pos hpg
    rw [hnew] at this
    cases this
  refine ⟨⟨?_, ?_⟩, ?_, ?_, ?_⟩
  · rw [hadd]
    exact List.getElem?_set_self hhostlt
  · intro q
    rw [Finset.mem_insert, mem_unionOver]
  · intro i hi hne
    have hirest : i ∈ rest := by
      rcases List.mem_cons.mp hi with h | h
      · exact absurd h hne
      · exact h
    constructor
    · rw [hadd]
      show (s.groups.set host _)[i]? = some ∅
      rw [List.getElem?_set_ne (fun hh => hne hh.symm)]
      exact h5 i hirest hne
    · rw [hadd]
      show i ∈ s.free_spots
      rw [h3]
      apply Finset.mem_union_right
      rw [List.mem_toFinset, List.mem_filter]
      exact ⟨hirest, by simp [hne]⟩
  · -- total tile count
    have hlen2 : (gd.add pos).groups.length = gd.groups.length := by
      rw [hadd]
      show (s.groups.set host _).length = _
      rw [List.length_set, h2]
    have hSsub : (host :: rest).toFinset ⊆ Finset.range gd.groups.length := by
      intro i hi
      rw [Finset.mem_range]
      exact hSlt i (List.mem_toFinset.mp hi)
    have hdisj : ∀ i ∈ (host :: rest).toFinset, ∀ j ∈ (host :: rest).toFinset,
        i ≠ j → Disjoint ((gd.groups[i]?).getD ∅) ((gd.groups[j]?).getD ∅) := by
      intro i _ j _ hij
      rw [Finset.disjoint_left]
      intro q hqi hqj
      rcases hmemberOf q i hqi with ⟨gi, hgi, hqgi⟩
      rcases hmemberOf q j hqj with ⟨gj, hgj, hqgj⟩
      have hi := hwf.2.1 i gi hgi q hqgi
      have hj := hwf.2.1 j gj hgj q hqgj
      rw [hi] at hj
      exact hij (Option.some_injective _ hj)
    have hbu : unionOver gd.groups (host :: rest) =
        (host :: rest).toFinset.biUnion (fun i => (gd.groups[i]?).getD ∅) := by
      ext q
      rw [mem_unionOver, Finset.mem_biUnion]
      constructor
      · rintro ⟨i, hi, hq⟩
        exact ⟨i, List.mem_toFinset.mpr hi, hq⟩
      · rintro ⟨i, hi, hq⟩
        exact ⟨i, List.mem_toFinset.mp hi, hq⟩
    have hcardU : (unionOver gd.groups (host :: rest)).card =
        ∑ i ∈ (host :: rest).toFinset, ((gd.groups[i]?).getD ∅).card := by
      rw [hbu]
      exact Finset.card_biUnion hdisj
    have hf'host : (((gd.add pos).groups[host]?).getD ∅).card =
        (unionOver gd.groups (host :: rest)).card + 1 := by
      rw [hadd]
      show (((s.groups.set host _)[host]?).getD ∅).card = _
      rw [List.getElem?_set_self hhostlt, Option.getD_some]
      rw [Finset.card_insert_of_not_mem hposnotin]
    have hf'zero : ∀ i ∈ (host :: rest).toFinset, i ≠ host →
        (((gd.add pos).groups[i]?).getD ∅).card = 0 := by
      intro i hi hne
      have hirest : i ∈ rest := by
        rcases List.mem_cons.mp (List.mem_toFinset.mp hi) with h | h
        · exact absurd h hne
        · exact h
      rw [hadd]
      show (((s.groups.set host _)[i]?).getD ∅).card = 0
      rw [List.getElem?_set_ne (fun hh => hne hh.symm), h5 i hirest hne]
      simp
    have hf'same : ∀ i, i ∉ (host :: rest).toFinset →
        ((gd.add pos).groups[i]?).getD ∅ = (gd.groups[i]?).getD ∅ := by
      intro i hi
      have hne : i ≠ host := fun hh => hi (List.mem_toFinset.mpr (by
        rw [hh]; exact List.mem_cons_self host rest))
      have hirest : i ∉ rest := fun hh => hi (List.mem_toFinset.mpr
        (List.mem_cons.mpr (Or.inr hh)))
      rw [hadd]
      show (((s.groups.set host _)[i]?).getD ∅) = _
      rw [List.getElem?_set_ne (fun hh => hne hh.symm), h6 i hne hirest]
    unfold totalTiles
    rw [hlen2]
    rw [← Finset.sum_sdiff hSsub, ← Finset.sum_sdiff hSsub]
    have hout : ∑ i ∈ Finset.range gd.groups.length \ (host :: rest).toFinset,
        (((gd.add pos).groups[i]?).getD ∅).card =
        ∑ i ∈ Finset.range gd.groups.length \ (host :: rest).toFinset,
        (((gd.groups[i]?).getD ∅)).card := by
      apply Finset.sum_congr rfl
      intro i hi
      rw [hf'same i (Finset.mem_sdiff.mp hi).2]
    have hhostS : host ∈ (host :: rest).toFinset :=
      List.mem_toFinset.mpr (List.mem_cons_self host rest)
    have hinS : ∑ i ∈ (host :: rest).toFinset,
        (((gd.add pos).groups[i]?).getD ∅).card =
        (∑ i ∈ (host :: rest).toFinset, ((gd.groups[i]?).getD ∅).card) + 1 := by
      rw [← Finset.add_sum_erase _ _ hhostS, hf'host, hcardU]
      have : ∑ i ∈ ((host :: rest).toFinset).erase host,
          (((gd.add pos).groups[i]?).getD ∅).card = 0 := by
        apply Finset.sum_eq_zero
        intro i hi
        exact hf'zero i (Finset.mem_of_mem_erase hi) (Finset.ne_of_mem_erase hi)
      rw [this]
    rw [hout, hinS]
    ring
  · intro q hq
    rw [hadd]
    show (if q ∈ insert pos (unionOver gd.groups (host :: rest)) then some host
      else gd.groups_map q) = some host
    rw [if_pos hq]

theorem gd6_WF : gd6.WF := by
  refine ⟨?_, ?_, ?_⟩
  · intro p i h
    simp only [gd6] at h
    split at h
    · rename_i hp
      injection h with h
      subst h
      subst hp
      exact ⟨{a6}, rfl, by simp⟩
    · split at h
      · rename_i hp
        injection h with h
        subst h
        subst hp
        exact ⟨{c6}, rfl, by simp⟩
      · cases h
  · intro i g hg p hp
    rcases i with _ | _ | i
    · have hgx : ({a6} : GroupData.Group) = g := Option.some.inj hg
      subst hgx
      have hpa : p = a6 := Finset.mem_singleton.mp hp
      subst hpa
      decide
    · have hgx : ({c6} : GroupData.Group) = g := Option.some.inj hg
      subst hgx
      have hpc : p = c6 := Finset.mem_singleton.mp hp
      subst hpc
      decide
    · cases hg
  · intro i hi
    simp [gd6] at hi

/-- Witness for C6 at the concrete three-tile merge: inserting pos6 between
the singleton groups {a6} and {c6} yields one group {pos6, a6, c6} in slot 0,
empties slot 1 into the free pool, preserves the tracked-tile count up to the
new tile, and reindexes every member to slot 0. -/
theorem add_merges_adjacent_groups_witness :
    gd6.WF ∧ gd6.groups_map pos6 = none ∧
    (getNeighbours pos6).filterMap gd6.groups_map = 0 :: [1] ∧
    (∃ j ∈ [1], j ≠ 0) ∧
    ((gd6.add pos6).groups[0]? =
        some (insert pos6 (unionOver gd6.groups (0 :: [1]))) ∧
      (∀ q, q ∈ insert pos6 (unionOver gd6.groups (0 :: [1])) ↔
        (q = pos6 ∨ ∃ i ∈ (0 : Nat) :: [1], q ∈ ((gd6.groups[i]?).getD ∅)))) ∧
    (∀ i ∈ (0 : Nat) :: [1], i ≠ 0 →
      (gd6.add pos6).groups[i]? = some ∅ ∧ i ∈ (gd6.add pos6).free_spots) ∧
    totalTiles (gd6.add pos6) = totalTiles gd6 + 1 ∧
    (∀ q, q ∈ insert pos6 (unionOver gd6.groups (0 :: [1])) →
      (gd6.add pos6).groups_map q = some 0) := by
  have h := add_merges_adjacent_groups gd6 pos6 0 [1] gd6_WF rfl (by decide)
    ⟨1, by decide, by decide⟩
  exact ⟨gd6_WF, rfl, by decide, ⟨1, by decide, by decide⟩,
    h.1, h.2.1, h.2.2.1, h.2.2.2⟩

theorem add_WF_of_seen_cons (gd : GroupData) (pos : Coord) (host : Nat)
    (rest : List Nat) (hwf : gd.WF) (hnew : gd.groups_map pos = none)
    (hseen : (getNeighbours pos).filterMap gd.groups_map = host :: rest) :
    (gd.add pos).WF ∧ (∃ i, (gd.add pos).groups_map pos = some i) := by
  have hm := hwf.1
  set s := (getNeighbours pos).foldl (add_step gd.groups_map)
    ⟨gd.groups, gd.free_spots, none⟩ with hs
  have hinv : LoopInv gd.groups gd.free_spots (host :: rest) s := by
    have h0 := foldl_add_step_inv gd.groups_map gd.groups gd.free_spots hm
      (getNeighbours pos) [] ⟨gd.groups, gd.free_spots, none⟩ rfl
    rw [List.nil_append, hseen] at h0
    exact h0
  obtain ⟨h1, h2, h3, h4, h5, h6⟩ := hinv
  have hhostlt : host < s.groups.length := (List.getElem?_eq_some.mp h4).1
  have hadd : gd.add pos =
      ⟨s.groups.set host (insert pos (unionOver gd.groups (host :: rest))),
        fun p => if p ∈ insert pos (unionOver gd.groups (host :: rest))
          then some host else gd.groups_map p,
        s.free_spots⟩ := by
    simp only [GroupData.add, hnew, ← hs]
    simp only [h1, h4, Option.getD_some, List.getElem?_set_self hhostlt]
  have hwitness : ∀ j ∈ host :: rest, ∃ n, gd.groups_map n = some j := by
    intro j hj
    rw [← hseen] at hj
    rcases List.mem_filterMap.mp hj with ⟨n, _, hmn⟩
    exact ⟨n, hmn⟩
  have hgroups' : ∀ j, (gd.add pos).groups[j]? =
      (if j = host then some (insert pos (unionOver gd.groups (host :: rest)))
       else if j ∈ rest then some ∅ else gd.groups[j]?) := by
    intro j
    rw [hadd]
    show (s.groups.set host _)[j]? = _
    by_cases hjh : j = host
    · subst hjh
      rw [if_pos rfl, List.getElem?_set_self hhostlt]
    · rw [if_neg hjh, List.getElem?_set_ne (fun hh => hjh hh.symm)]
      by_cases hjr : j ∈ rest
      · rw [if_pos hjr]
        exact h5 j hjr hjh
      · rw [if_neg hjr]
        exact h6 j hjh hjr
  have hUin : ∀ q, q ∈ unionOver gd.groups (host :: rest) →
      ∃ j ∈ host :: rest, ∃ g, gd.groups[j]? = some g ∧ q ∈ g := by
    intro q hq
    rcases (mem_unionOver _ _ _).mp hq with ⟨j, hj, hqj⟩
    cases hgj : gd.groups[j]? with
    | none => rw [hgj] at hqj; simp at hqj
    | some g => rw [hgj] at hqj; exact ⟨j, hj, g, hgj, hqj⟩
  have hHnot : ∀ p i, gd.groups_map p = some i →
      p ∉ insert pos (unionOver gd.groups (host :: rest)) ∨ i ∈ host :: rest := by
    intro p i hp
    by_cases hmem : p ∈ insert pos (unionOver gd.groups (host :: rest))
    · right
      rcases Finset.mem_insert.mp hmem with hpp | hpU
      · subst hpp
        rw [hnew] at hp
        cases hp
      · rcases hUin p hpU with ⟨j, hj, g, hg, hpg⟩
        have := hwf.2.1 j g hg p hpg
        rw [hp] at this
        have hij : i = j := Option.some_injective _ this
        rw [hij]
        exact hj
    · exact Or.inl hmem
  refine ⟨⟨?_, ?_, ?_⟩, ?_⟩
  · -- WF part 1
    intro p i hp
    rw [hadd] at hp
    simp only at hp
    by_cases hmem : p ∈ insert pos (unionOver gd.groups (host :: rest))
    · rw [if_pos hmem] at hp
      have hih : i = host := (Option.some_injective _ hp).symm
      subst hih
      refine ⟨_, ?_, hmem⟩
      rw [hgroups' i, if_pos rfl]
    · rw [if_neg hmem] at hp
      rcases hwf.1 p i hp with ⟨g, hg, hpg⟩
      have hinotseen : i ∉ host :: rest := by
        intro hi
        apply hmem
        apply Finset.mem_insert_of_mem
        apply (mem_unionOver _ _ _).mpr
        exact ⟨i, hi, by rw [hg]; exact hpg⟩
      refine ⟨g, ?_, hpg⟩
      rw [hgroups' i]
      rw [if_neg (fun hh => hinotseen (by rw [hh]; exact List.mem_cons_self _ _)),
        if_neg (fun hh => hinotseen (List.mem_cons.mpr (Or.inr hh)))]
      exact hg
  · -- WF part 2
    intro i g' hgi p hp
    rw [hgroups' i] at hgi
    rw [hadd]
    simp only
    by_cases hih : i = host
    · subst hih
      rw [if_pos rfl] at hgi
      have : insert pos (unionOver gd.groups (i :: rest)) = g' :=
        Option.some_injective _ hgi
      rw [← this] at hp
      rw [if_pos hp]
    · rw [if_neg hih] at hgi
      by_cases hir : i ∈ rest
      · rw [if_pos hir] at hgi
        have : (∅ : GroupData.Group) = g' := Option.some_injective _ hgi
        rw [← this] at hp
        simp at hp
      · rw [if_neg hir] at hgi
        have hmp := hwf.2.1 i g' hgi p hp
        rcases hHnot p i hmp with hout | hin
        · rw [if_neg hout]
          exact hmp
        · rcases List.mem_cons.mp hin with h | h
          · exact absurd h hih
          · exact absurd h hir
  · -- WF part 3 (free slots hold empty groups)
    intro i hi
    rw [hadd] at hi
    simp only at hi
    rw [h3] at hi
    have hinothost : ∀ j, j ∈ host :: rest → gd.groups[j]? = some ∅ → False := by
      intro j hj hjempty
      rcases hwitness j hj with ⟨n, hn⟩
      rcases hwf.1 n j hn with ⟨g, hg, hng⟩
      rw [hjempty] at hg
      have : (∅ : GroupData.Group) = g := Option.some_injective _ hg
      rw [← this] at hng
      simp at hng
    rcases Finset.mem_union.mp hi with hiF | hiR
    · have hfree := hwf.2.2 i hiF
      have hih : i ≠ host := by
        intro hh
        exact hinothost i (by rw [hh]; exact List.mem_cons_self _ _) hfree
      have hir : i ∉ rest := by
        intro hh
        exact hinothost i (List.mem_cons.mpr (Or.inr hh)) hfree
      rw [hgroups' i, if_neg hih, if_neg hir]
      exact hfree
    · rw [List.mem_toFinset, List.mem_filter] at hiR
      have hih : i ≠ host := by
        have := hiR.2
        simp at this
        exact this
      rw [hgroups' i, if_neg hih, if_pos hiR.1]
  · -- pos is indexed afterwards
    refine ⟨host, ?_⟩
    rw [hadd]
    simp only
    rw [if_pos (Finset.mem_insert_self pos _)]

theorem add_WF_of_seen_nil (gd : GroupData) (pos : Coord) (hwf : gd.WF)
    (hnew : gd.groups_map pos = none)
    (hseen : (getNeighbours pos).filterMap gd.groups_map = []) :
    (gd.add pos).WF ∧ (∃ i, (gd.add pos).groups_map pos = some i) := by
  have hm := hwf.1
  set s := (getNeighbours pos).foldl (add_step gd.groups_map)
    ⟨gd.groups, gd.free_spots, none⟩ with hs
  have hsval : s = ⟨gd.groups, gd.free_spots, none⟩ := by
    have h0 := foldl_add_step_inv gd.groups_map gd.groups gd.free_spots hm
      (getNeighbours pos) [] ⟨gd.groups, gd.free_spots, none⟩ rfl
    rw [List.nil_append, hseen] at h0
    exact h0
  by_cases hne : gd.free_spots.Nonempty
  · -- reuse the smallest pooled slot
    have hfree := hwf.2.2 (gd.free_spots.min' hne) (Finset.min'_mem _ hne)
    have hgilt : gd.free_spots.min' hne < gd.groups.length :=
      (List.getElem?_eq_some.mp hfree).1
    have hadd : gd.add pos =
        ⟨gd.groups.set (gd.free_spots.min' hne) (insert pos ∅),
          fun p => if p ∈ insert pos (∅ : GroupData.Group)
            then some (gd.free_spots.min' hne) else gd.groups_map p,
          gd.free_spots.erase (gd.free_spots.min' hne)⟩ := by
      simp only [GroupData.add, hnew, ← hs, hsval]
      rw [dif_pos hne]
      simp only [hfree, Option.getD_some, List.getElem?_set_self hgilt]
    refine ⟨⟨?_, ?_, ?_⟩, ?_⟩
    · intro p i hp
      rw [hadd] at hp
      simp only at hp
      by_cases hmem : p ∈ insert pos (∅ : GroupData.Group)
      · rw [if_pos hmem] at hp
        have hih : i = gd.free_spots.min' hne := (Option.some_injective _ hp).symm
        subst hih
        refine ⟨insert pos ∅, ?_, hmem⟩
        rw [hadd]
        show (gd.groups.set _ _)[_]? = _
        rw [List.getElem?_set_self hgilt]
      · rw [if_neg hmem] at hp
        rcases hwf.1 p i hp with ⟨g, hg, hpg⟩
        have hig : i ≠ gd.free_spots.min' hne := by
          intro hh
          subst hh
          rw [hfree] at hg
          have : (∅ : GroupData.Group) = g := Option.some_injective _ hg
          rw [← this] at hpg
          simp at hpg
        refine ⟨g, ?_, hpg⟩
        rw [hadd]
        show (gd.groups.set _ _)[i]? = _
        rw [List.getElem?_set_ne (fun hh => hig hh.symm)]
        exact hg
    · intro i g' hgi p hp
      rw [hadd] at hgi
      simp only at hgi
      rw [hadd]
      simp only
      by_cases hig : i = gd.free_spots.min' hne
      · subst hig
        rw [List.getElem?_set_self hgilt] at hgi
        have : insert pos (∅ : GroupData.Group) = g' :=
          Option.some_injective _ hgi
        rw [← this] at hp
        rw [if_pos hp]
      · rw [List.getElem?_set_ne (fun hh => hig hh.symm)] at hgi
        have hmp := hwf.2.1 i g' hgi p hp
        have hpnot : p ∉ insert pos (∅ : GroupData.Group) := by
          intro hmem
          rcases Finset.mem_insert.mp hmem with hpp | hp0
          · subst hpp
            rw [hnew] at hmp
            cases hmp
          · simp at hp0
        rw [if_neg hpnot]
        exact hmp
    · intro i hi
      rw [hadd] at hi
      simp only at hi
      have hig : i ≠ gd.free_spots.min' hne := Finset.ne_of_mem_erase hi
      have hiF : i ∈ gd.free_spots := Finset.mem_of_mem_erase hi
      rw [hadd]
      show (gd.groups.set _ _)[i]? = _
      rw [List.getElem?_set_ne (fun hh => hig hh.symm)]
      exact hwf.2.2 i hiF
    · refine ⟨gd.free_spots.min' hne, ?_⟩
      rw [hadd]
      simp only
      rw [if_pos (Finset.mem_insert_self pos _)]
  · -- append a brand-new slot
    have hF : gd.free_spots = ∅ := Finset.not_nonempty_iff_eq_empty.mp hne
    have hcat : (gd.groups ++ [(∅ : GroupData.Group)])[gd.groups.length]? =
        some ∅ := List.getElem?_concat_length _ _
    have hgilt : gd.groups.length < (gd.groups ++ [(∅ : GroupData.Group)]).length := by
      rw [List.length_append]
      simp
    have hadd : gd.add pos =
        ⟨(gd.groups ++ [∅]).set gd.groups.length (insert pos ∅),
          fun p => if p ∈ insert pos (∅ : GroupData.Group)
            then some gd.groups.length else gd.groups_map p,
          gd.free_spots⟩ := by
      simp only [GroupData.add, hnew, ← hs, hsval]
      rw [dif_neg hne]
      simp only [hcat, Option.getD_some, List.getElem?_set_self hgilt]
    refine ⟨⟨?_, ?_, ?_⟩, ?_⟩
    · intro p i hp
      rw [hadd] at hp
      simp only at hp
      by_cases hmem : p ∈ insert pos (∅ : GroupData.Group)
      · rw [if_pos hmem] at hp
        have hih : i = gd.groups.length := (Option.some_injective _ hp).symm
        subst hih
        refine ⟨insert pos ∅, ?_, hmem⟩
        rw [hadd]
        show ((gd.groups ++ [∅]).set _ _)[_]? = _
        rw [List.getElem?_set_self hgilt]
      · rw [if_neg hmem] at hp
        rcases hwf.1 p i hp with ⟨g, hg, hpg⟩
        have hilt : i < gd.groups.length := (List.getElem?_eq_some.mp hg).1
        refine ⟨g, ?_, hpg⟩
        rw [hadd]
        show ((gd.groups ++ [∅]).set _ _)[i]? = _
        rw [List.getElem?_set_ne (Nat.ne_of_gt hilt),
          List.getElem?_append_left hilt]
        exact hg
    · intro i g' hgi p hp
      rw [hadd] at hgi
      simp only at hgi
      rw [hadd]
      simp only
      by_cases hig : i = gd.groups.length
      · subst hig
        rw [List.getElem?_set_self hgilt] at hgi
        have : insert pos (∅ : GroupData.Group) = g' :=
          Option.some_injective _ hgi
        rw [← this] at hp
        rw [if_pos hp]
      · rw [List.getElem?_set_ne (fun hh => hig hh.symm)] at hgi
        rcases Nat.lt_or_ge i gd.groups.length with hilt | hige
        · rw [List.getElem?_append_left hilt] at hgi
          have hmp := hwf.2.1 i g' hgi p hp
          have hpnot : p ∉ insert pos (∅ : GroupData.Group) := by
            intro hmem
            rcases Finset.mem_insert.mp hmem with hpp | hp0
            · subst hpp
              rw [hnew] at hmp
              cases hmp
            · simp at hp0
          rw [if_neg hpnot]
          exact hmp
        · exfalso
          have hgege : (gd.groups ++ [(∅ : GroupData.Group)]).length ≤ i := by
            rw [List.length_append]
            simp only [List.length_singleton]
            rcases Nat.lt_or_ge i (gd.groups.length + 1) with hlt | hge
            · exact absurd (by omega : i = gd.groups.length) hig
            · exact hge
          rw [List.getElem?_eq_none hgege] at hgi
          cases hgi
    · intro i hi
      rw [hadd] at hi
      simp only at hi
      rw [hF] at hi
      simp at hi
    · refine ⟨gd.groups.length, ?_⟩
      rw [hadd]
      simp only
      rw [if_pos (Finset.mem_insert_self pos _)]

theorem add_preserves_WF (gd : GroupData) (pos : Coord) (hwf : gd.WF) :
    (gd.add pos).WF ∧ ∃ i, (gd.add pos).groups_map pos = some i := by
  cases hpos : gd.groups_map pos with
  | some i =>
    have heq : gd.add pos = gd := by simp [GroupData.add, hpos]
    rw [heq]
    exact ⟨hwf, ⟨i, hpos⟩⟩
  | none =>
    cases hseen : (getNeighbours pos).filterMap gd.groups_map with
    | nil => exact add_WF_of_seen_nil gd pos hwf hpos hseen
    | cons host rest => exact add_WF_of_seen_cons gd pos host rest hwf hpos hseen

theorem add_keeps_indexed (gd : GroupData) (pos q : Coord) (j : Nat)
    (h : gd.groups_map q = some j) :
    ∃ j', (gd.add pos).groups_map q = some j' := by
  cases hpos : gd.groups_map pos with
  | some i =>
    have heq : gd.add pos = gd := by simp [GroupData.add, hpos]
    rw [heq]
    exact ⟨j, h⟩
  | none =>
    simp only [GroupData.add, hpos]
    have hgen : ∀ (c : Prop) (hd : Decidable c) (a : Nat) (f : Option Nat),
        f = some j → ∃ j', (if c then some a else f) = some j' := by
      intro c hd a f hf
      by_cases hc : c
      · exact ⟨a, if_pos hc⟩
      · refine ⟨j, ?_⟩
        rw [if_neg hc]
        exact hf
    exact hgen _ _ _ _ h

theorem foldl_preserves {α σ : Type _} (P : σ → Prop) (f : σ → α → σ)
    (h : ∀ s a, P s → P (f s a)) :
    ∀ (l : List α) (s : σ), P s → P (l.foldl f s) := by
  intro l
  induction l with
  | nil => intro s hs; exact hs
  | cons a l ih => intro s hs; exact ih _ (h s a hs)

theorem foldl_reaches {α σ : Type _} (P Q : σ → Prop) (f : σ → α → σ) (x : α)
    (hP : ∀ s a, P s → P (f s a))
    (hstep : ∀ s, P s → Q (f s x))
    (hQ : ∀ s a, Q s → Q (f s a)) :
    ∀ (l : List α) (s : σ), P s → x ∈ l → Q (l.foldl f s) := by
  intro l
  induction l with
  | nil => intro s _ hx; exact absurd hx (List.not_mem_nil x)
  | cons a l ih =>
    intro s hs hx
    rw [List.foldl_cons]
    rcases List.mem_cons.mp hx with h | h
    · subst h
      exact foldl_preserves Q f hQ l (f s x) (hstep s hs)
    · exact ih (f s a) (hP s a hs) h

theorem foreach_tile_WF (gd : GroupData) (block : MapBlock) (z : Int)
    (hwf : gd.WF) : (gd.foreach_tile block z).WF := by
  unfold GroupData.foreach_tile
  refine foldl_preserves GroupData.WF _ ?_ _ _ hwf
  intro s a hs
  refine foldl_preserves GroupData.WF _ ?_ _ _ hs
  intro s2 a2 hs2
  split
  · exact (add_preserves_WF _ _ hs2).1
  · exact hs2

theorem foreach_tile_keeps_indexed (gd : GroupData) (block : MapBlock)
    (z : Int) (q : Coord) (j : Nat) (h : gd.groups_map q = some j) :
    ∃ j', (gd.foreach_tile block z).groups_map q = some j' := by
  unfold GroupData.foreach_tile
  refine foldl_preserves (fun g : GroupData => ∃ j', g.groups_map q = some j') _ ?_ _ _ ⟨j, h⟩
  intro s a hs
  refine foldl_preserves (fun g : GroupData => ∃ j', g.groups_map q = some j') _ ?_ _ _ hs
  intro s2 a2 hs2
  rcases hs2 with ⟨j2, hj2⟩
  split
  · exact add_keeps_indexed _ _ _ _ hj2
  · exact ⟨j2, hj2⟩

theorem foreach_tile_covers (gd : GroupData) (block : MapBlock) (z : Int)
    (lx ly : Fin 16) (hwf : gd.WF)
    (hch : is_channel_des (block.designation lx ly) = true) :
    ∃ j, (gd.foreach_tile block z).groups_map
      ⟨block.map_pos.x + lx.val, block.map_pos.y + ly.val, z⟩ = some j := by
  unfold GroupData.foreach_tile
  refine foldl_reaches GroupData.WF
    (fun g : GroupData => ∃ j, g.groups_map
      ⟨block.map_pos.x + lx.val, block.map_pos.y + ly.val, z⟩ = some j)
    _ lx ?_ ?_ ?_ _ _ hwf (List.mem_finRange lx)
  · intro s a hs
    refine foldl_preserves GroupData.WF _ ?_ _ _ hs
    intro s2 a2 hs2
    split
    · exact (add_preserves_WF _ _ hs2).1
    · exact hs2
  · intro s hs
    refine foldl_reaches GroupData.WF
      (fun g : GroupData => ∃ j, g.groups_map
        ⟨block.map_pos.x + lx.val, block.map_pos.y + ly.val, z⟩ = some j)
      _ ly ?_ ?_ ?_ _ _ hs (List.mem_finRange ly)
    · intro s2 a2 hs2
      split
      · exact (add_preserves_WF _ _ hs2).1
      · exact hs2
    · intro s2 hs2
      rw [if_pos hch]
      exact (add_preserves_WF _ _ hs2).2
    · intro s2 a2 hs2
      rcases hs2 with ⟨j2, hj2⟩
      split
      · exact add_keeps_indexed _ _ _ _ hj2
      · exact ⟨j2, hj2⟩
  · intro s a hs
    refine foldl_preserves
      (fun g : GroupData => ∃ j, g.groups_map
        ⟨block.map_pos.x + lx.val, block.map_pos.y + ly.val, z⟩ = some j)
      _ ?_ _ _ hs
    intro s2 a2 hs2
    rcases hs2 with ⟨j2, hj2⟩
    split
    · exact add_keeps_indexed _ _ _ _ hj2
    · exact ⟨j2, hj2⟩

theorem scan_blocks_WF (gd : GroupData) (w : World) (ext : Extents)
    (hwf : gd.WF) : (gd.scan_blocks w ext).WF := by
  unfold GroupData.scan_blocks
  refine foldl_preserves GroupData.WF _ ?_ _ _ hwf
  intro s a hs
  refine foldl_preserves GroupData.WF _ ?_ _ _ hs
  intro s2 a2 hs2
  refine foldl_preserves GroupData.WF _ ?_ _ _ hs2
  intro s3 a3 hs3
  split
  · exact foreach_tile_WF _ _ _ hs3
  · exact hs3

theorem scan_blocks_covers (gd : GroupData) (w : World) (ext : Extents)
    (hwf : gd.WF) (ix iy iz : Nat) (hx : ix < ext.x) (hy : iy < ext.y)
    (hz : iz < ext.z) (b : MapBlock)
    (hb : w.blocks ⟨(ix : Int), (iy : Int), (iz : Int)⟩ = some b)
    (lx ly : Fin 16) (hch : is_channel_des (b.designation lx ly) = true) :
    ∃ j, (gd.scan_blocks w ext).groups_map
      ⟨b.map_pos.x + lx.val, b.map_pos.y + ly.val, (iz : Int)⟩ = some j := by
  unfold GroupData.scan_blocks
  refine foldl_reaches GroupData.WF
    (fun g : GroupData => ∃ j, g.groups_map
      ⟨b.map_pos.x + lx.val, b.map_pos.y + ly.val, (iz : Int)⟩ = some j)
    _ ix ?_ ?_ ?_ _ _ hwf (List.mem_range.mpr hx)
  · intro s a hs
    refine foldl_preserves GroupData.WF _ ?_ _ _ hs
    intro s2 a2 hs2
    refine foldl_preserves GroupData.WF _ ?_ _ _ hs2
    intro s3 a3 hs3
    split
    · exact foreach_tile_WF _ _ _ hs3
    · exact hs3
  · intro s hs
    refine foldl_reaches GroupData.WF
      (fun g : GroupData => ∃ j, g.groups_map
        ⟨b.map_pos.x + lx.val, b.map_pos.y + ly.val, (iz : Int)⟩ = some j)
      _ iy ?_ ?_ ?_ _ _ hs (List.mem_range.mpr hy)
    · intro s2 a2 hs2
      refine foldl_preserves GroupData.WF _ ?_ _ _ hs2
      intro s3 a3 hs3
      split
      · exact foreach_tile_WF _ _ _ hs3
      · exact hs3
    · intro s2 hs2
      refine foldl_reaches GroupData.WF
        (fun g : GroupData => ∃ j, g.groups_map
          ⟨b.map_pos.x + lx.val, b.map_pos.y + ly.val, (iz : Int)⟩ = some j)
        _ iz ?_ ?_ ?_ _ _ hs2 (List.mem_reverse.mpr (List.mem_range.mpr hz))
      · intro s3 a3 hs3
        split
        · exact foreach_tile_WF _ _ _ hs3
        · exact hs3
      · intro s3 hs3
        rw [hb]
        exact foreach_tile_covers _ _ _ _ _ hs3 hch
      · intro s3 a3 hs3
        rcases hs3 with ⟨j3, hj3⟩
        split
        · exact foreach_tile_keeps_indexed _ _ _ _ _ hj3
        · exact ⟨j3, hj3⟩
    · intro s2 a2 hs2
      rcases hs2 with ⟨j2, hj2⟩
      refine foldl_preserves
        (fun g : GroupData => ∃ j, g.groups_map
          ⟨b.map_pos.x + lx.val, b.map_pos.y + ly.val, (iz : Int)⟩ = some j)
        _ ?_ _ _ ⟨j2, hj2⟩
      intro s3 a3 hs3
      rcases hs3 with ⟨j3, hj3⟩
      split
      · exact foreach_tile_keeps_indexed _ _ _ _ _ hj3
      · exact ⟨j3, hj3⟩
  · intro s a hs
    rcases hs with ⟨j0, hj0⟩
    refine foldl_preserves
      (fun g : GroupData => ∃ j, g.groups_map
        ⟨b.map_pos.x + lx.val, b.map_pos.y + ly.val, (iz : Int)⟩ = some j)
      _ ?_ _ _ ⟨j0, hj0⟩
    intro s2 a2 hs2
    rcases hs2 with ⟨j2, hj2⟩
    refine foldl_preserves
      (fun g : GroupData => ∃ j, g.groups_map
        ⟨b.map_pos.x + lx.val, b.map_pos.y + ly.val, (iz : Int)⟩ = some j)
      _ ?_ _ _ ⟨j2, hj2⟩
    intro s3 a3 hs3
    rcases hs3 with ⟨j3, hj3⟩
    split
    · exact foreach_tile_keeps_indexed _ _ _ _ _ hj3
    · exact ⟨j3, hj3⟩

theorem read_fst (gd : GroupData) (w : World) (cache : Option Extents) :
    (GroupData.read gd w cache).1 =
      (DigJobs.read w).jobs.foldl
        (fun g e => if is_channel e.2 then g.add e.1 else g)
        (gd.scan_blocks w (cache.getD w.size)) := rfl

/-- C7: after a full rebuild of the component tracker (GroupData::read) from a
consistent state, the tracker is consistent again, every Channel-designated
tile of the scanned grid belongs to exactly one group, and no two groups
share a tile. -/
theorem read_partition (gd : GroupData) (w : World) (cache : Option Extents)
    (hwf : gd.WF) :
    (GroupData.read gd w cache).1.WF ∧
    (∀ ix iy iz : Nat, ix < (cache.getD w.size).x → iy < (cache.getD w.size).y →
      iz < (cache.getD w.size).z →
      ∀ b : MapBlock, w.blocks ⟨(ix : Int), (iy : Int), (iz : Int)⟩ = some b →
      ∀ lx ly : Fin 16, is_channel_des (b.designation lx ly) = true →
      ∃! i : Nat, ∃ g, (GroupData.read gd w cache).1.groups[i]? = some g ∧
        (⟨b.map_pos.x + lx.val, b.map_pos.y + ly.val, (iz : Int)⟩ : Coord) ∈ g) ∧
    (∀ (i j : Nat) (gi gj : GroupData.Group) (t : Coord),
      (GroupData.read gd w cache).1.groups[i]? = some gi →
      (GroupData.read gd w cache).1.groups[j]? = some gj →
      t ∈ gi → t ∈ gj → i = j) := by
  have hWF : (GroupData.read gd w cache).1.WF := by
    rw [read_fst]
    refine foldl_preserves GroupData.WF _ ?_ _ _
      (scan_blocks_WF gd w _ hwf)
    intro s a hs
    split
    · exact (add_preserves_WF _ _ hs).1
    · exact hs
  refine ⟨hWF, ?_, ?_⟩
  · intro ix iy iz hx hy hz b hb lx ly hch
    have hidx : ∃ j, (GroupData.read gd w cache).1.groups_map
        ⟨b.map_pos.x + lx.val, b.map_pos.y + ly.val, (iz : Int)⟩ = some j := by
      rw [read_fst]
      rcases scan_blocks_covers gd w _ hwf ix iy iz hx hy hz b hb lx ly hch
        with ⟨j0, hj0⟩
      refine foldl_preserves
        (fun g : GroupData => ∃ j, g.groups_map
          ⟨b.map_pos.x + lx.val, b.map_pos.y + ly.val, (iz : Int)⟩ = some j)
        _ ?_ _ _ ⟨j0, hj0⟩
      intro s a hs
      rcases hs with ⟨j2, hj2⟩
      split
      · exact add_keeps_indexed _ _ _ _ hj2
      · exact ⟨j2, hj2⟩
    rcases hidx with ⟨j, hj⟩
    rcases hWF.1 _ j hj with ⟨g, hg, hmem⟩
    refine ⟨j, ⟨g, hg, hmem⟩, ?_⟩
    rintro j' ⟨g', hg', hmem'⟩
    have h1 := hWF.2.1 j' g' hg' _ hmem'
    rw [hj] at h1
    exact (Option.some_injective _ h1).symm
  · intro i j gi gj t hgi hgj hti htj
    have h1 := hWF.2.1 i gi hgi t hti
    have h2 := hWF.2.1 j gj hgj t htj
    rw [h1] at h2
    exact Option.some_injective _ h2

theorem gdEmpty_WF : gdEmpty.WF := by
  refine ⟨?_, ?_, ?_⟩
  · intro p i h
    cases h
  · intro i g hg
    simp [gdEmpty] at hg
  · intro i hi
    simp [gdEmpty] at hi

/-- Witness for C7 at a concrete one-tile grid: after the rebuild the single
Channel-designated tile lies in exactly one group. -/
theorem read_partition_witness :
    gdEmpty.WF ∧
    (∃! i : Nat, ∃ g, (GroupData.read gdEmpty w7 none).1.groups[i]? = some g ∧
      (⟨b7.map_pos.x + (0 : Fin 16).val, b7.map_pos.y + (0 : Fin 16).val,
        ((0 : Nat) : Int)⟩ : Coord) ∈ g) := by
  have h := read_partition gdEmpty w7 none gdEmpty_WF
  exact ⟨gdEmpty_WF,
    h.2.1 0 0 0 (by decide) (by decide) (by decide) b7 rfl 0 0 (by decide)⟩

/-- C10: the grid extents used by full rescans are queried from the grid
adapter only on the first rescan (the static flags): starting with both
statics unset, the first rescan uses and captures the first world's map
size; a later rescan — even on a different world whose size differs — still
uses the captured extents both for the block enumeration (foreach_block's
static) and for the top-most-layer check (manage_designations' static zmax),
and the caches keep the stale first-world extents. -/
theorem rescan_uses_cached_extents (w1 w2 : World) :
    (ChannelManager.manage_designations w1 none none).used_md = w1.size ∧
    (ChannelManager.manage_designations w1 none none).used_fb = w1.size ∧
    (ChannelManager.manage_designations w2
        (ChannelManager.manage_designations w1 none none).md_cache
        (ChannelManager.manage_designations w1 none none).fb_cache).used_md
      = w1.size ∧
    (ChannelManager.manage_designations w2
        (ChannelManager.manage_designations w1 none none).md_cache
        (ChannelManager.manage_designations w1 none none).fb_cache).used_fb
      = w1.size ∧
    (ChannelManager.manage_designations w2
        (ChannelManager.manage_designations w1 none none).md_cache
        (ChannelManager.manage_designations w1 none none).fb_cache).md_cache
      = some w1.size ∧
    (ChannelManager.manage_designations w2
        (ChannelManager.manage_designations w1 none none).md_cache
        (ChannelManager.manage_designations w1 none none).fb_cache).fb_cache
      = some w1.size :=
  ⟨rfl, rfl, rfl, rfl, rfl, rfl⟩
